import Mathlib

/-!
Verification of the two data-structure cores of the repository:
the LRU-K replacer (src/buffer/lru_k_replacer.cpp) and the
extendible hash table (src/container/hash/extendible_hash_table.cpp).

Modelling conventions:
- C++ `std::unordered_map<frame_id_t, T>` with `operator[]` defaulting is
  modelled as a total function `Nat → T` returning the default outside the
  stored entries (default-insertion of `operator[]` is unobservable).
- `std::list` plus a hash from element to iterator (used for O(1) erase)
  is modelled as a plain `List Nat`; the hash's membership test is list
  membership, and erasing through the stored iterator is `List.erase`
  (the lists are duplicate-free in every reachable state).
- `throw std::exception()` is modelled by returning `none`.
- `std::shared_ptr<Bucket>` with pointer-equality tests is modelled by an
  arena: the table keeps a pool of all buckets ever created and the
  directory stores pool indices; pointer equality is index equality and
  in-place mutation through a shared pointer is `List.set` on the pool.
- `std::hash<K>` is a parameter `hash : K → Nat`; for the repository's
  instantiation at `int` keys (libstdc++) it is the identity.
-/

set_option maxHeartbeats 1000000
set_option linter.unusedSectionVars false

namespace BusTub

/-! ## LRU-K replacer, from src/buffer/lru_k_replacer.cpp -/

/-- State of `LRUKReplacer`: fields mirror `k_`, `replacer_size_`,
`curr_size_`, `history_list_`, `lru_k_list_`, `access_count_`,
`is_evictable_` (front of each list is the head). -/
structure LRUK where
  k : Nat
  replacerSize : Nat
  currSize : Nat
  historyList : List Nat
  lruKList : List Nat
  accessCount : Nat → Nat
  isEvictable : Nat → Bool

/-- Pointwise update of a `Nat`-valued map (also used for map erase,
writing back the default 0). -/
def updN (g : Nat → Nat) (f v : Nat) : Nat → Nat := fun x => if x = f then v else g x

/-- Pointwise update of a `Bool`-valued map (also used for map erase,
writing back the default `false`). -/
def updB (g : Nat → Bool) (f : Nat) (v : Bool) : Nat → Bool :=
  fun x => if x = f then v else g x

/-- Constructor `LRUKReplacer(num_frames, k)`. -/
def LRUK.init (numFrames kk : Nat) : LRUK :=
  { k := kk, replacerSize := numFrames, currSize := 0,
    historyList := [], lruKList := [],
    accessCount := fun _ => 0, isEvictable := fun _ => false }

/-- `LRUKReplacer::RecordAccess` (lines 51-75).  The bounds check is the
source's `frame_id > static_cast<frame_id_t>(replacer_size_)`, i.e. the
id equal to the capacity is accepted.

In the `count == k_` branch the source runs
`history_list_.erase(history_hash_[frame_id])` (line 63) with no presence
guard, unlike the `< k_` and `> k_` branches which both check `find` first.
When the frame has no stored iterator — which happens exactly when it is
absent from the history list, i.e. on the first access of a frame with
`k_ = 1` — `operator[]` default-constructs a singular iterator and the
erase through it is undefined behavior.  The model makes that path an
explicit error (`none`); when the frame is present, list membership stands
for the stored iterator and the erase is the defined one. -/
def recordAccess (r : LRUK) (f : Nat) : Option LRUK :=
  if f > r.replacerSize then none
  else
    let c := r.accessCount f + 1
    let r1 := { r with accessCount := updN r.accessCount f c }
    if c < r.k then
      if f ∈ r.historyList then some r1
      else some { r1 with historyList := f :: r.historyList }
    else if c = r.k then
      if f ∈ r.historyList then
        some { r1 with historyList := r.historyList.erase f,
                       lruKList := f :: r.lruKList }
      else none
    else
      some { r1 with lruKList := f :: r.lruKList.erase f }

/-- `LRUKReplacer::Evict` (lines 19-49): scan the history list from the
back, then the LRU-K list from the back, for an evictable frame; on
success erase the frame from its list and clear its metadata. -/
def evict (r : LRUK) : LRUK × Option Nat :=
  if r.currSize = 0 then (r, none)
  else
    match r.historyList.reverse.find? (fun f => r.isEvictable f) with
    | some f =>
        ({ r with historyList := r.historyList.erase f,
                  isEvictable := updB r.isEvictable f false,
                  accessCount := updN r.accessCount f 0,
                  currSize := r.currSize - 1 }, some f)
    | none =>
      match r.lruKList.reverse.find? (fun f => r.isEvictable f) with
      | some f =>
          ({ r with lruKList := r.lruKList.erase f,
                    isEvictable := updB r.isEvictable f false,
                    accessCount := updN r.accessCount f 0,
                    currSize := r.currSize - 1 }, some f)
      | none => (r, none)

/-- `LRUKReplacer::SetEvictable` (lines 77-92). -/
def setEvictable (r : LRUK) (f : Nat) (flag : Bool) : Option LRUK :=
  if f > r.replacerSize then none
  else if r.accessCount f = 0 then some r
  else
    let cs :=
      if r.isEvictable f = true ∧ flag = false then r.currSize - 1
      else if r.isEvictable f = false ∧ flag = true then r.currSize + 1
      else r.currSize
    some { r with currSize := cs, isEvictable := updB r.isEvictable f flag }

/-- `LRUKReplacer::Remove` (lines 94-111).  The unknown-frame check comes
first; then the evictability/bounds check; then the erase. -/
def removeF (r : LRUK) (f : Nat) : Option LRUK :=
  if r.accessCount f = 0 then some r
  else if r.isEvictable f = false ∨ f > r.replacerSize then none
  else
    let r1 :=
      if f ∈ r.historyList then { r with historyList := r.historyList.erase f }
      else { r with lruKList := r.lruKList.erase f }
    some { r1 with currSize := r1.currSize - 1,
                   isEvictable := updB r1.isEvictable f false,
                   accessCount := updN r1.accessCount f 0 }

/-- `LRUKReplacer::Size` (lines 113-116). -/
def size (r : LRUK) : Nat := r.currSize

/-- Number of frames whose evictable flag is set (every flagged frame id
is at most `replacerSize` in reachable states, so the range covers all). -/
def numEvictable (r : LRUK) : Nat :=
  ((Finset.range (r.replacerSize + 1)).filter (fun f => r.isEvictable f = true)).card

/-- One external replacer operation. -/
inductive ROp where
  | access (f : Nat)
  | setEv (f : Nat) (flag : Bool)
  | ev
  | rem (f : Nat)

/-- Apply one operation; a call that throws leaves the state unchanged
(in the source every throw happens before any mutation). -/
def applyROp (r : LRUK) : ROp → LRUK
  | .access f => (recordAccess r f).getD r
  | .setEv f b => (setEvictable r f b).getD r
  | .ev => (evict r).1
  | .rem f => (removeF r f).getD r

/-- Run a sequence of replacer operations. -/
def runR (ops : List ROp) (r : LRUK) : LRUK := ops.foldl applyROp r

/-! ## Extendible hash table, from src/container/hash/extendible_hash_table.cpp -/

/-- A bucket: `size_` (capacity), `depth_` (local depth), `list_`. -/
structure Bucket (K V : Type) where
  size : Nat
  depth : Nat
  list : List (K × V)
  deriving DecidableEq

/-- Table state: `global_depth_`, `bucket_size_`, `num_buckets_`, the
arena of all buckets ever created, and `dir_` as pool indices. -/
structure EHT (K V : Type) where
  globalDepth : Nat
  bucketSize : Nat
  numBuckets : Nat
  pool : List (Bucket K V)
  dir : List Nat
  deriving DecidableEq

variable {K V : Type} [DecidableEq K] [DecidableEq V]

/-- Modelled from the spec: the header-only accessor `Bucket::IsFull`,
"bounded collection ... with a fixed capacity `bucket_size`" and the
`while (dir_[IndexOf(key)]->IsFull())` guard: full means the entry list
has reached the capacity. -/
def Bucket.isFull (b : Bucket K V) : Bool := b.list.length == b.size

/-- `Bucket::Find` (lines 142-150): first entry with the key, if any. -/
def bfind (b : Bucket K V) (key : K) : Option V :=
  (b.list.find? (fun it => decide (it.1 = key))).map Prod.snd

/-- `Bucket::Remove` (lines 153-161): find the first entry with the key
and remove it (`std::list::remove` drops every element equal to it). -/
def bremove (b : Bucket K V) (key : K) : Bucket K V × Bool :=
  match b.list.find? (fun it => decide (it.1 = key)) with
  | some it => ({ b with list := b.list.filter (fun x => decide (x ≠ it)) }, true)
  | none => (b, false)

/-- Overwrite of the value of the first entry holding `key`, used by the
upsert scan in `Insert` (lines 126-131). -/
def replaceFirst : List (K × V) → K → V → List (K × V)
  | [], _, _ => []
  | it :: rest, key, value =>
      if it.1 = key then (it.1, value) :: rest else it :: replaceFirst rest key value

/-- `Bucket::Insert` (lines 164-176): refuse when full, overwrite an
existing key, else append. -/
def binsert (b : Bucket K V) (key : K) (value : V) : Bucket K V × Bool :=
  if b.isFull then (b, false)
  else if (b.list.find? (fun it => decide (it.1 = key))).isSome then
    ({ b with list := replaceFirst b.list key value }, false)
  else ({ b with list := b.list ++ [(key, value)] }, true)

variable (hash : K → Nat)

/-- `ExtendibleHashTable::IndexOf` (lines 31-34):
`hash(key) & ((1 << global_depth_) - 1)`. -/
def IndexOf (t : EHT K V) (key : K) : Nat :=
  Nat.land (hash key) (2 ^ t.globalDepth - 1)

/-- Directory entry at slot `j` (a pool index). -/
def dirAt (t : EHT K V) (j : Nat) : Nat := t.dir.getD j 0

/-- Bucket referenced by directory slot `j`. -/
def bucketAt (t : EHT K V) (j : Nat) : Bucket K V :=
  t.pool.getD (dirAt t j) ⟨0, 0, []⟩

/-- Constructor (lines 25-28): one empty bucket of local depth 0. -/
def EHT.empty (bucketSize : Nat) : EHT K V :=
  { globalDepth := 0, bucketSize := bucketSize, numBuckets := 1,
    pool := [⟨bucketSize, 0, []⟩], dir := [0] }

/-- `ExtendibleHashTable::Find` (lines 70-74). -/
def find (t : EHT K V) (key : K) : Option V :=
  bfind (bucketAt t (IndexOf hash t key)) key

/-- `ExtendibleHashTable::Remove` (lines 77-81): delegate to the bucket at
the key's slot, mutating it in place through the shared pointer. -/
def remove (t : EHT K V) (key : K) : EHT K V × Bool :=
  let index := IndexOf hash t key
  let bid := dirAt t index
  let pr := bremove (t.pool.getD bid ⟨0, 0, []⟩) key
  ({ t with pool := t.pool.set bid pr.1 }, pr.2)

/-- Directory doubling (lines 97-104): the new upper half copies the
lower half slot for slot. -/
def doubleDir (t : EHT K V) : EHT K V :=
  { t with globalDepth := t.globalDepth + 1, dir := t.dir ++ t.dir }

/-- Redistribution loop (lines 105-114): distribute the origin bucket's
entries over two fresh buckets of one more local depth, on the bit
`1 << origin.depth` of the key's hash. -/
def redistribute (m : Nat) : List (K × V) → Bucket K V × Bucket K V → Bucket K V × Bucket K V
  | [], p => p
  | it :: rest, p =>
      redistribute m rest
        (if Nat.land (hash it.1) m ≠ 0 then (p.1, (binsert p.2 it.1 it.2).1)
         else ((binsert p.1 it.1 it.2).1, p.2))

/-- Creation of the two split buckets, redistribution and directory
rewiring (lines 105-124): every slot referencing the origin bucket is
redirected to the split bucket selected by bit `1 << origin.depth` of the
slot index. -/
def splitBucket (t : EHT K V) (bid : Nat) : EHT K V :=
  let origin := t.pool.getD bid ⟨0, 0, []⟩
  let mask := 2 ^ origin.depth
  let pr := redistribute hash mask origin.list
    (⟨t.bucketSize, origin.depth + 1, []⟩, ⟨t.bucketSize, origin.depth + 1, []⟩)
  { t with
    numBuckets := t.numBuckets + 1,
    pool := t.pool ++ [pr.1, pr.2],
    dir := t.dir.enum.map fun ji =>
      if ji.2 = bid then
        (if Nat.land ji.1 mask ≠ 0 then t.pool.length + 1 else t.pool.length)
      else ji.2 }

/-- The first split bucket (hash bit `1 << depth` clear), as produced by
the redistribution loop. -/
def splitB0 (t : EHT K V) (bid : Nat) : Bucket K V :=
  { size := t.bucketSize, depth := (t.pool.getD bid ⟨0, 0, []⟩).depth + 1,
    list := (t.pool.getD bid ⟨0, 0, []⟩).list.filter
      (fun it => !decide (Nat.land (hash it.1)
        (2 ^ (t.pool.getD bid ⟨0, 0, []⟩).depth) ≠ 0)) }

/-- The second split bucket (hash bit `1 << depth` set). -/
def splitB1 (t : EHT K V) (bid : Nat) : Bucket K V :=
  { size := t.bucketSize, depth := (t.pool.getD bid ⟨0, 0, []⟩).depth + 1,
    list := (t.pool.getD bid ⟨0, 0, []⟩).list.filter
      (fun it => decide (Nat.land (hash it.1)
        (2 ^ (t.pool.getD bid ⟨0, 0, []⟩).depth) ≠ 0)) }

/-- One iteration of the `while` loop in `Insert` (lines 94-125): double
the directory when the target bucket's local depth has reached the global
depth, then split the target bucket. -/
def stepOnce (t : EHT K V) (key : K) : EHT K V :=
  let bid := dirAt t (IndexOf hash t key)
  let origin := t.pool.getD bid ⟨0, 0, []⟩
  let t1 := if origin.depth = t.globalDepth then doubleDir t else t
  splitBucket hash t1 bid

/-- The `while (dir_[IndexOf(key)]->IsFull())` loop of `Insert`, with
explicit fuel; `none` means the loop did not finish within `fuel`
iterations. -/
def insertLoop : Nat → EHT K V → K → Option (EHT K V)
  | 0, t, key =>
      if (bucketAt t (IndexOf hash t key)).isFull then none else some t
  | fuel + 1, t, key =>
      if (bucketAt t (IndexOf hash t key)).isFull then
        insertLoop fuel (stepOnce hash t key) key
      else some t

/-- The code after the loop (lines 126-132): overwrite the first entry
holding the key, else insert into the (now non-full) bucket. -/
def finishInsert (t : EHT K V) (key : K) (value : V) : EHT K V :=
  let bid := dirAt t (IndexOf hash t key)
  let b := t.pool.getD bid ⟨0, 0, []⟩
  if (b.list.find? (fun it => decide (it.1 = key))).isSome then
    { t with pool := t.pool.set bid { b with list := replaceFirst b.list key value } }
  else
    { t with pool := t.pool.set bid (binsert b key value).1 }

/-- `ExtendibleHashTable::Insert` (lines 84-133). -/
def insert (fuel : Nat) (t : EHT K V) (key : K) (value : V) : Option (EHT K V) :=
  (insertLoop hash fuel t key).map (fun t' => finishInsert hash t' key value)

/-- One external hash-table operation (`ins` carries the fuel bounding
the number of split iterations its call may take). -/
inductive HOp (K V : Type) where
  | ins (fuel : Nat) (key : K) (value : V)
  | rem (key : K)

/-- Run a sequence of operations; `none` when some insert ran out of
fuel. -/
def runOps : List (HOp K V) → EHT K V → Option (EHT K V)
  | [], t => some t
  | .ins fuel k v :: rest, t =>
      match insert hash fuel t k v with
      | some t' => runOps rest t'
      | none => none
  | .rem k :: rest, t => runOps rest (remove hash t k).1

/-- Reference lookup semantics of an operation sequence for key `k`,
starting from the current association `acc`: the value of the most
recent insert of `k` not followed by a remove of `k`. -/
def specFind : List (HOp K V) → K → Option V → Option V
  | [], _, acc => acc
  | .ins _ k' v :: rest, k, acc =>
      specFind rest k (if k' = k then some v else acc)
  | .rem k' :: rest, k, acc =>
      specFind rest k (if k' = k then none else acc)

/-- Count of set flags over the id range `[0, cap]`. -/
def evCard (cap : Nat) (p : Nat → Bool) : Nat :=
  ((Finset.range (cap + 1)).filter (fun f => p f = true)).card

/-- Reachable-state invariant of the replacer. -/
structure InvR (r : LRUK) : Prop where
  nodupH : r.historyList.Nodup
  nodupK : r.lruKList.Nodup
  mem_hist : ∀ f, f ∈ r.historyList ↔ (1 ≤ r.accessCount f ∧ r.accessCount f < r.k)
  mem_lruk : ∀ f, f ∈ r.lruKList ↔ (r.k ≤ r.accessCount f ∧ 1 ≤ r.accessCount f)
  ev_known : ∀ f, r.isEvictable f = true → 1 ≤ r.accessCount f
  ev_bound : ∀ f, r.isEvictable f = true → f ≤ r.replacerSize
  size_eq : r.currSize = numEvictable r

/-- Reachable-state invariant of the extendible hash table.  `sharedIff`
is the structural heart: two directory slots reference the same bucket
exactly when they agree on the low `local_depth` bits. -/
structure Inv (hash : K → Nat) (t : EHT K V) : Prop where
  dirLen : t.dir.length = 2 ^ t.globalDepth
  ref : ∀ j < t.dir.length, dirAt t j < t.pool.length
  depthLe : ∀ j < t.dir.length, (bucketAt t j).depth ≤ t.globalDepth
  sizeEq : ∀ j < t.dir.length, (bucketAt t j).size = t.bucketSize
  lenLe : ∀ j < t.dir.length, (bucketAt t j).list.length ≤ t.bucketSize
  keyBits : ∀ j < t.dir.length, ∀ it ∈ (bucketAt t j).list,
      hash it.1 % 2 ^ (bucketAt t j).depth = j % 2 ^ (bucketAt t j).depth
  sharedIff : ∀ j1 < t.dir.length, ∀ j2 < t.dir.length,
      (dirAt t j1 = dirAt t j2 ↔
        j1 % 2 ^ (bucketAt t j1).depth = j2 % 2 ^ (bucketAt t j1).depth)
  nodup : ∀ j < t.dir.length, ((bucketAt t j).list.map Prod.fst).Nodup


/-- Concrete table state reached by inserting (0,10) then (2,20) into an
empty table of bucket size 2 under the identity hash: one full bucket. -/
def exTable : EHT Nat Nat := ⟨0, 2, 1, [⟨2, 0, [(0, 10), (2, 20)]⟩], [0]⟩

/-- Concrete table state reached by inserting (1,10) into an empty table of
bucket size 1 under the identity hash: one full bucket holding key 1. -/
def exTable1 : EHT Nat Nat := ⟨0, 1, 1, [⟨1, 0, [(1, 10)]⟩], [0]⟩

/-! ## Replacer invariants -/

theorem updN_self (g : Nat → Nat) (f v : Nat) : updN g f v f = v := by simp [updN]

theorem updN_ne (g : Nat → Nat) {f x : Nat} (v : Nat) (h : x ≠ f) :
    updN g f v x = g x := by simp [updN, h]

theorem updB_self (g : Nat → Bool) (f : Nat) (v : Bool) : updB g f v f = v := by simp [updB]

theorem updB_ne (g : Nat → Bool) {f x : Nat} (v : Bool) (h : x ≠ f) :
    updB g f v x = g x := by simp [updB, h]

theorem numEvictable_eq (r : LRUK) : numEvictable r = evCard r.replacerSize r.isEvictable := rfl

theorem evCard_congr {cap : Nat} {p q : Nat → Bool} (h : ∀ f, p f = q f) :
    evCard cap p = evCard cap q := by
  unfold evCard
  exact congrArg Finset.card (Finset.filter_congr (fun x _ => by rw [h x]))

theorem filter_updB_true {cap : Nat} {p : Nat → Bool} {f0 : Nat} (hf : f0 ≤ cap) :
    (Finset.range (cap + 1)).filter (fun x => updB p f0 true x = true) =
      Insert.insert f0 ((Finset.range (cap + 1)).filter (fun x => p x = true)) := by
  ext x
  simp only [Finset.mem_filter, Finset.mem_insert, Finset.mem_range, updB]
  by_cases hx : x = f0
  · subst hx; simp [Nat.lt_succ_of_le hf]
  · simp [hx]

theorem filter_updB_false {cap : Nat} {p : Nat → Bool} {f0 : Nat} :
    (Finset.range (cap + 1)).filter (fun x => updB p f0 false x = true) =
      ((Finset.range (cap + 1)).filter (fun x => p x = true)).erase f0 := by
  ext x
  simp only [Finset.mem_filter, Finset.mem_erase, Finset.mem_range, updB]
  by_cases hx : x = f0
  · subst hx; simp
  · simp [hx]

theorem evCard_updB_true_of_false {cap : Nat} {p : Nat → Bool} {f0 : Nat}
    (hf : f0 ≤ cap) (hp : p f0 = false) :
    evCard cap (updB p f0 true) = evCard cap p + 1 := by
  unfold evCard
  rw [filter_updB_true hf, Finset.card_insert_of_not_mem]
  simp [hp]

theorem evCard_updB_true_of_true {cap : Nat} {p : Nat → Bool} {f0 : Nat}
    (hp : p f0 = true) : evCard cap (updB p f0 true) = evCard cap p := by
  refine evCard_congr (fun f => ?_)
  by_cases hx : f = f0
  · subst hx; simp [updB, hp]
  · simp [updB, hx]

theorem evCard_updB_false_of_true {cap : Nat} {p : Nat → Bool} {f0 : Nat}
    (hf : f0 ≤ cap) (hp : p f0 = true) :
    evCard cap (updB p f0 false) + 1 = evCard cap p := by
  unfold evCard
  rw [filter_updB_false, Finset.card_erase_add_one]
  simp [hp, Nat.lt_succ_of_le hf]

theorem evCard_updB_false_of_false {cap : Nat} {p : Nat → Bool} {f0 : Nat}
    (hp : p f0 = false) : evCard cap (updB p f0 false) = evCard cap p := by
  refine evCard_congr (fun f => ?_)
  by_cases hx : f = f0
  · subst hx; simp [updB, hp]
  · simp [updB, hx]

theorem evCard_pos {cap : Nat} {p : Nat → Bool} {f0 : Nat}
    (hf : f0 ≤ cap) (hp : p f0 = true) : 0 < evCard cap p := by
  refine Finset.card_pos.2 ⟨f0, ?_⟩
  simp [hp, Nat.lt_succ_of_le hf]

theorem exists_flag_of_evCard_pos {cap : Nat} {p : Nat → Bool}
    (h : 0 < evCard cap p) : ∃ f, p f = true := by
  obtain ⟨f, hf⟩ := Finset.card_pos.1 h
  exact ⟨f, (Finset.mem_filter.1 hf).2⟩

theorem InvR.disj {r : LRUK} (h : InvR r) {f : Nat} (hH : f ∈ r.historyList) :
    f ∉ r.lruKList := by
  intro hK
  have h1 := (h.mem_hist f).1 hH
  have h2 := (h.mem_lruk f).1 hK
  omega

theorem invR_init (n kk : Nat) : InvR (LRUK.init n kk) := by
  refine ⟨?_, ?_, ?_, ?_, ?_, ?_, ?_⟩ <;>
    simp [LRUK.init, numEvictable]

theorem recordAccess_invR {r r' : LRUK} {f : Nat}
    (hI : InvR r) (h : recordAccess r f = some r') : InvR r' := by
  unfold recordAccess at h
  by_cases hcap : f > r.replacerSize
  · simp [hcap] at h
  · rw [if_neg hcap] at h
    simp only [] at h
    by_cases h1 : r.accessCount f + 1 < r.k
    · rw [if_pos h1] at h
      by_cases h2 : f ∈ r.historyList
      · rw [if_pos h2] at h
        cases Option.some.inj h
        refine ⟨hI.nodupH, hI.nodupK, ?_, ?_, ?_, hI.ev_bound, hI.size_eq⟩ <;>
          intro g <;> dsimp only <;> by_cases hg : g = f
        · subst hg
          simp only [updN_self]
          exact ⟨fun _ => ⟨by omega, h1⟩, fun _ => h2⟩
        · simp only [updN_ne _ _ hg]; exact hI.mem_hist g
        · subst hg
          simp only [updN_self]
          have hfH := (hI.mem_hist g).1 h2
          constructor
          · intro hgK; have := (hI.mem_lruk g).1 hgK; omega
          · intro hc; omega
        · simp only [updN_ne _ _ hg]; exact hI.mem_lruk g
        · subst hg; intro _; simp only [updN_self]; omega
        · intro hev; simp only [updN_ne _ _ hg]; exact hI.ev_known g hev
      · rw [if_neg h2] at h
        cases Option.some.inj h
        have hzero : r.accessCount f = 0 := by
          by_contra hne
          exact h2 ((hI.mem_hist f).2 ⟨by omega, by omega⟩)
        have hfK : f ∉ r.lruKList := by
          intro hK; have := (hI.mem_lruk f).1 hK; omega
        refine ⟨List.nodup_cons.mpr ⟨h2, hI.nodupH⟩, hI.nodupK, ?_, ?_, ?_,
            hI.ev_bound, hI.size_eq⟩ <;>
          intro g <;> dsimp only <;> by_cases hg : g = f
        · subst hg
          simp only [updN_self, List.mem_cons]
          exact ⟨fun _ => ⟨by omega, h1⟩, fun _ => by simp⟩
        · simp only [updN_ne _ _ hg, List.mem_cons]
          constructor
          · rintro (hgf | hmem)
            · exact absurd hgf hg
            · exact (hI.mem_hist g).1 hmem
          · intro hc; exact Or.inr ((hI.mem_hist g).2 hc)
        · subst hg
          simp only [updN_self]
          exact ⟨fun hm => absurd hm hfK, fun hc => by omega⟩
        · simp only [updN_ne _ _ hg]; exact hI.mem_lruk g
        · subst hg; intro _; simp only [updN_self]; omega
        · intro hev; simp only [updN_ne _ _ hg]; exact hI.ev_known g hev
    · rw [if_neg h1] at h
      by_cases h2 : r.accessCount f + 1 = r.k
      · rw [if_pos h2] at h
        by_cases hmem : f ∈ r.historyList
        swap
        · rw [if_neg hmem] at h; cases h
        rw [if_pos hmem] at h
        cases Option.some.inj h
        have hfK : f ∉ r.lruKList := by
          intro hK; have := (hI.mem_lruk f).1 hK; omega
        refine ⟨hI.nodupH.erase f, List.nodup_cons.mpr ⟨hfK, hI.nodupK⟩, ?_, ?_, ?_,
            hI.ev_bound, hI.size_eq⟩ <;>
          intro g <;> dsimp only <;> by_cases hg : g = f
        · subst hg
          simp only [updN_self]
          exact ⟨fun hm => absurd hm hI.nodupH.not_mem_erase, fun hc => by omega⟩
        · rw [List.mem_erase_of_ne hg]
          simp only [updN_ne _ _ hg]
          exact hI.mem_hist g
        · subst hg
          simp only [updN_self, List.mem_cons]
          exact ⟨fun _ => ⟨by omega, by omega⟩, fun _ => by simp⟩
        · simp only [updN_ne _ _ hg, List.mem_cons]
          constructor
          · rintro (hgf | hmem)
            · exact absurd hgf hg
            · exact (hI.mem_lruk g).1 hmem
          · intro hc; exact Or.inr ((hI.mem_lruk g).2 hc)
        · subst hg; intro _; simp only [updN_self]; omega
        · intro hev; simp only [updN_ne _ _ hg]; exact hI.ev_known g hev
      · rw [if_neg h2] at h
        cases Option.some.inj h
        have hold : r.k ≤ r.accessCount f := by omega
        have hfH : f ∉ r.historyList := by
          intro hH; have := (hI.mem_hist f).1 hH; omega
        refine ⟨hI.nodupH,
            List.nodup_cons.mpr ⟨hI.nodupK.not_mem_erase, hI.nodupK.erase f⟩, ?_, ?_, ?_,
            hI.ev_bound, hI.size_eq⟩ <;>
          intro g <;> dsimp only <;> by_cases hg : g = f
        · subst hg
          simp only [updN_self]
          exact ⟨fun hm => absurd hm hfH, fun hc => by omega⟩
        · simp only [updN_ne _ _ hg]; exact hI.mem_hist g
        · subst hg
          simp only [updN_self, List.mem_cons]
          exact ⟨fun _ => ⟨by omega, by omega⟩, fun _ => by simp⟩
        · simp only [updN_ne _ _ hg, List.mem_cons]
          rw [List.mem_erase_of_ne hg]
          constructor
          · rintro (hgf | hmem)
            · exact absurd hgf hg
            · exact (hI.mem_lruk g).1 hmem
          · intro hc; exact Or.inr ((hI.mem_lruk g).2 hc)
        · subst hg; intro _; simp only [updN_self]; omega
        · intro hev; simp only [updN_ne _ _ hg]; exact hI.ev_known g hev

theorem setEvictable_invR {r r' : LRUK} {f : Nat} {flag : Bool}
    (hI : InvR r) (h : setEvictable r f flag = some r') : InvR r' := by
  unfold setEvictable at h
  by_cases hcap : f > r.replacerSize
  · simp [hcap] at h
  · rw [if_neg hcap] at h
    by_cases hz : r.accessCount f = 0
    · rw [if_pos hz] at h
      cases Option.some.inj h
      exact hI
    · rw [if_neg hz] at h
      simp only [] at h
      cases Option.some.inj h
      have hle : f ≤ r.replacerSize := by omega
      refine ⟨hI.nodupH, hI.nodupK, hI.mem_hist, hI.mem_lruk, ?_, ?_, ?_⟩
      · intro g hg
        dsimp only at hg ⊢
        by_cases hgf : g = f
        · subst hgf; omega
        · rw [updB_ne _ _ hgf] at hg; exact hI.ev_known g hg
      · intro g hg
        dsimp only at hg ⊢
        by_cases hgf : g = f
        · subst hgf; exact hle
        · rw [updB_ne _ _ hgf] at hg; exact hI.ev_bound g hg
      · dsimp only
        rw [numEvictable_eq]
        dsimp only
        have h4 : r.currSize = evCard r.replacerSize r.isEvictable := hI.size_eq
        cases hev : r.isEvictable f
        · cases hflag : flag
          · rw [if_neg (by simp), if_neg (by simp)]
            rw [evCard_updB_false_of_false hev]
            exact h4
          · rw [if_neg (by simp), if_pos ⟨rfl, rfl⟩]
            rw [evCard_updB_true_of_false hle hev]
            omega
        · cases hflag : flag
          · rw [if_pos ⟨rfl, rfl⟩]
            have h2 := evCard_updB_false_of_true hle hev
            have h3 := evCard_pos hle hev
            omega
          · rw [if_neg (by simp), if_neg (by simp)]
            rw [evCard_updB_true_of_true hev]
            exact h4

theorem rev_find?_split {l : List Nat} {p : Nat → Bool} {f : Nat}
    (h : l.reverse.find? p = some f) :
    ∃ l1 l2, l = l1 ++ f :: l2 ∧ p f = true ∧ ∀ g ∈ l2, p g = false := by
  obtain ⟨hpf, as, bs, hrev, hall⟩ := List.find?_eq_some.1 h
  refine ⟨bs.reverse, as.reverse, ?_, hpf, ?_⟩
  · have h2 := congrArg List.reverse hrev
    simp only [List.reverse_reverse, List.reverse_append, List.reverse_cons,
      List.append_assoc, List.singleton_append] at h2
    exact h2
  · intro g hg
    have hmem : g ∈ as := by simpa using hg
    simpa using hall g hmem

theorem evict_invR {r : LRUK} (hI : InvR r) : InvR (evict r).1 := by
  unfold evict
  by_cases hsz : r.currSize = 0
  · rw [if_pos hsz]; exact hI
  · rw [if_neg hsz]
    cases hH : r.historyList.reverse.find? (fun g => r.isEvictable g) with
    | some f =>
      dsimp only
      have hfH : f ∈ r.historyList := by
        have := List.mem_of_find?_eq_some hH
        simpa using this
      have hfev : r.isEvictable f = true := List.find?_some hH
      have hfK : f ∉ r.lruKList := hI.disj hfH
      have hle : f ≤ r.replacerSize := hI.ev_bound f hfev
      refine ⟨hI.nodupH.erase f, hI.nodupK, ?_, ?_, ?_, ?_, ?_⟩ <;> dsimp only
      · intro g
        by_cases hg : g = f
        · subst hg
          simp only [updN_self]
          exact ⟨fun hm => absurd hm hI.nodupH.not_mem_erase, fun hc => by omega⟩
        · rw [List.mem_erase_of_ne hg, updN_ne _ _ hg]
          exact hI.mem_hist g
      · intro g
        by_cases hg : g = f
        · subst hg
          simp only [updN_self]
          exact ⟨fun hm => absurd hm hfK, fun hc => by omega⟩
        · rw [updN_ne _ _ hg]; exact hI.mem_lruk g
      · intro g hg
        by_cases hgf : g = f
        · subst hgf; rw [updB_self] at hg; exact absurd hg (by simp)
        · rw [updB_ne _ _ hgf] at hg
          rw [updN_ne _ _ hgf]
          exact hI.ev_known g hg
      · intro g hg
        by_cases hgf : g = f
        · subst hgf; rw [updB_self] at hg; exact absurd hg (by simp)
        · rw [updB_ne _ _ hgf] at hg; exact hI.ev_bound g hg
      · rw [numEvictable_eq]
        dsimp only
        have h2 := evCard_updB_false_of_true hle hfev
        have h3 := evCard_pos hle hfev
        have h4 : r.currSize = evCard r.replacerSize r.isEvictable := hI.size_eq
        omega
    | none =>
      cases hK : r.lruKList.reverse.find? (fun g => r.isEvictable g) with
      | some f =>
        dsimp only
        have hfK : f ∈ r.lruKList := by
          have := List.mem_of_find?_eq_some hK
          simpa using this
        have hfev : r.isEvictable f = true := List.find?_some hK
        have hfH : f ∉ r.historyList := fun hm => hI.disj hm hfK
        have hle : f ≤ r.replacerSize := hI.ev_bound f hfev
        refine ⟨hI.nodupH, hI.nodupK.erase f, ?_, ?_, ?_, ?_, ?_⟩ <;> dsimp only
        · intro g
          by_cases hg : g = f
          · subst hg
            simp only [updN_self]
            exact ⟨fun hm => absurd hm hfH, fun hc => by omega⟩
          · rw [updN_ne _ _ hg]; exact hI.mem_hist g
        · intro g
          by_cases hg : g = f
          · subst hg
            simp only [updN_self]
            exact ⟨fun hm => absurd hm hI.nodupK.not_mem_erase, fun hc => by omega⟩
          · rw [List.mem_erase_of_ne hg, updN_ne _ _ hg]
            exact hI.mem_lruk g
        · intro g hg
          by_cases hgf : g = f
          · subst hgf; rw [updB_self] at hg; exact absurd hg (by simp)
          · rw [updB_ne _ _ hgf] at hg
            rw [updN_ne _ _ hgf]
            exact hI.ev_known g hg
        · intro g hg
          by_cases hgf : g = f
          · subst hgf; rw [updB_self] at hg; exact absurd hg (by simp)
          · rw [updB_ne _ _ hgf] at hg; exact hI.ev_bound g hg
        · rw [numEvictable_eq]
          dsimp only
          have h2 := evCard_updB_false_of_true hle hfev
          have h3 := evCard_pos hle hfev
          have h4 : r.currSize = evCard r.replacerSize r.isEvictable := hI.size_eq
          omega
      | none => exact hI

theorem removeF_invR {r r' : LRUK} {f : Nat}
    (hI : InvR r) (h : removeF r f = some r') : InvR r' := by
  unfold removeF at h
  by_cases hz : r.accessCount f = 0
  · rw [if_pos hz] at h
    cases Option.some.inj h
    exact hI
  · rw [if_neg hz] at h
    by_cases hg : r.isEvictable f = false ∨ f > r.replacerSize
    · simp [hg] at h
    · rw [if_neg hg] at h
      simp only [] at h
      push_neg at hg
      have hfev : r.isEvictable f = true := by
        cases hb : r.isEvictable f
        · exact absurd hb hg.1
        · rfl
      have hle : f ≤ r.replacerSize := by omega
      by_cases hfH : f ∈ r.historyList
      · rw [if_pos hfH] at h
        cases Option.some.inj h
        have hfK : f ∉ r.lruKList := hI.disj hfH
        refine ⟨hI.nodupH.erase f, hI.nodupK, ?_, ?_, ?_, ?_, ?_⟩ <;> dsimp only
        · intro g
          by_cases hg2 : g = f
          · subst hg2
            simp only [updN_self]
            exact ⟨fun hm => absurd hm hI.nodupH.not_mem_erase, fun hc => by omega⟩
          · rw [List.mem_erase_of_ne hg2, updN_ne _ _ hg2]
            exact hI.mem_hist g
        · intro g
          by_cases hg2 : g = f
          · subst hg2
            simp only [updN_self]
            exact ⟨fun hm => absurd hm hfK, fun hc => by omega⟩
          · rw [updN_ne _ _ hg2]; exact hI.mem_lruk g
        · intro g hg2
          by_cases hgf : g = f
          · subst hgf; rw [updB_self] at hg2; exact absurd hg2 (by simp)
          · rw [updB_ne _ _ hgf] at hg2
            rw [updN_ne _ _ hgf]
            exact hI.ev_known g hg2
        · intro g hg2
          by_cases hgf : g = f
          · subst hgf; rw [updB_self] at hg2; exact absurd hg2 (by simp)
          · rw [updB_ne _ _ hgf] at hg2; exact hI.ev_bound g hg2
        · rw [numEvictable_eq]
          dsimp only
          have h2 := evCard_updB_false_of_true hle hfev
          have h3 := evCard_pos hle hfev
          have h4 : r.currSize = evCard r.replacerSize r.isEvictable := hI.size_eq
          omega
      · rw [if_neg hfH] at h
        cases Option.some.inj h
        refine ⟨hI.nodupH, hI.nodupK.erase f, ?_, ?_, ?_, ?_, ?_⟩ <;> dsimp only
        · intro g
          by_cases hg2 : g = f
          · subst hg2
            simp only [updN_self]
            exact ⟨fun hm => absurd hm hfH, fun hc => by omega⟩
          · rw [updN_ne _ _ hg2]; exact hI.mem_hist g
        · intro g
          by_cases hg2 : g = f
          · subst hg2
            simp only [updN_self]
            exact ⟨fun hm => absurd hm hI.nodupK.not_mem_erase, fun hc => by omega⟩
          · rw [List.mem_erase_of_ne hg2, updN_ne _ _ hg2]
            exact hI.mem_lruk g
        · intro g hg2
          by_cases hgf : g = f
          · subst hgf; rw [updB_self] at hg2; exact absurd hg2 (by simp)
          · rw [updB_ne _ _ hgf] at hg2
            rw [updN_ne _ _ hgf]
            exact hI.ev_known g hg2
        · intro g hg2
          by_cases hgf : g = f
          · subst hgf; rw [updB_self] at hg2; exact absurd hg2 (by simp)
          · rw [updB_ne _ _ hgf] at hg2; exact hI.ev_bound g hg2
        · rw [numEvictable_eq]
          dsimp only
          have h2 := evCard_updB_false_of_true hle hfev
          have h3 := evCard_pos hle hfev
          have h4 : r.currSize = evCard r.replacerSize r.isEvictable := hI.size_eq
          omega

theorem applyROp_invR {r : LRUK} (hI : InvR r) (op : ROp) : InvR (applyROp r op) := by
  cases op with
  | access f =>
    dsimp only [applyROp]
    cases h : recordAccess r f with
    | some r2 => exact recordAccess_invR hI h
    | none => exact hI
  | setEv f b =>
    dsimp only [applyROp]
    cases h : setEvictable r f b with
    | some r2 => exact setEvictable_invR hI h
    | none => exact hI
  | ev => exact evict_invR hI
  | rem f =>
    dsimp only [applyROp]
    cases h : removeF r f with
    | some r2 => exact removeF_invR hI h
    | none => exact hI

theorem runR_invR {r : LRUK} (hI : InvR r) (ops : List ROp) : InvR (runR ops r) := by
  induction ops generalizing r with
  | nil => exact hI
  | cons op rest ih => exact ih (applyROp_invR hI op)

theorem runR_init_invR (ops : List ROp) (n kk : Nat) :
    InvR (runR ops (LRUK.init n kk)) := runR_invR (invR_init n kk) ops

theorem hist_or_lruk_of_known {r : LRUK} (hI : InvR r) {f : Nat}
    (h : 1 ≤ r.accessCount f) : f ∈ r.historyList ∨ f ∈ r.lruKList := by
  by_cases hlt : r.accessCount f < r.k
  · exact Or.inl ((hI.mem_hist f).2 ⟨h, hlt⟩)
  · exact Or.inr ((hI.mem_lruk f).2 ⟨by omega, h⟩)

/-- Full characterization of a successful `evict`: under the reachable-state
invariant, an evictable frame exists iff `evict` succeeds, the victim is the
last evictable frame of the history list (earliest first access), or, when
the history list holds no evictable frame, the last evictable frame of the
LRU-K list (least recent access); the victim is fully removed. -/
theorem evict_char {r : LRUK} (hI : InvR r) (hev : ∃ f0, r.isEvictable f0 = true) :
    ∃ f r', evict r = (r', some f) ∧ r.isEvictable f = true ∧
      ((r.accessCount f < r.k ∧
        ∃ l1 l2, r.historyList = l1 ++ f :: l2 ∧ ∀ g ∈ l2, r.isEvictable g = false) ∨
       ((∀ g ∈ r.historyList, r.isEvictable g = false) ∧ r.k ≤ r.accessCount f ∧
        ∃ l1 l2, r.lruKList = l1 ++ f :: l2 ∧ ∀ g ∈ l2, r.isEvictable g = false)) ∧
      f ∉ r'.historyList ∧ f ∉ r'.lruKList ∧ r'.accessCount f = 0 ∧
      r'.isEvictable f = false ∧ r'.currSize + 1 = r.currSize := by
  obtain ⟨f0, hf0⟩ := hev
  have hf0le : f0 ≤ r.replacerSize := hI.ev_bound f0 hf0
  have hpos : 0 < r.currSize := by
    have h1 := evCard_pos hf0le hf0
    have h2 : r.currSize = evCard r.replacerSize r.isEvictable := hI.size_eq
    omega
  have hsz : ¬r.currSize = 0 := by omega
  unfold evict
  rw [if_neg hsz]
  cases hH : r.historyList.reverse.find? (fun g => r.isEvictable g) with
  | some f =>
    dsimp only
    have hfH : f ∈ r.historyList := by
      have := List.mem_of_find?_eq_some hH
      simpa using this
    have hfev : r.isEvictable f = true := List.find?_some hH
    obtain ⟨l1, l2, hdec, _, hlast⟩ := rev_find?_split hH
    refine ⟨f, _, rfl, hfev, Or.inl ⟨((hI.mem_hist f).1 hfH).2, l1, l2, hdec, hlast⟩,
      ?_, ?_, ?_, ?_, ?_⟩ <;> dsimp only
    · exact hI.nodupH.not_mem_erase
    · exact hI.disj hfH
    · exact updN_self _ _ _
    · exact updB_self _ _ _
    · omega
  | none =>
    have hallH : ∀ g ∈ r.historyList, r.isEvictable g = false := by
      intro g hg
      have := List.find?_eq_none.1 hH g (List.mem_reverse.2 hg)
      simpa using this
    cases hK : r.lruKList.reverse.find? (fun g => r.isEvictable g) with
    | some f =>
      dsimp only
      have hfK : f ∈ r.lruKList := by
        have := List.mem_of_find?_eq_some hK
        simpa using this
      have hfev : r.isEvictable f = true := List.find?_some hK
      obtain ⟨l1, l2, hdec, _, hlast⟩ := rev_find?_split hK
      refine ⟨f, _, rfl, hfev,
        Or.inr ⟨hallH, ((hI.mem_lruk f).1 hfK).1, l1, l2, hdec, hlast⟩,
        ?_, ?_, ?_, ?_, ?_⟩ <;> dsimp only
      · intro hm
        rw [hallH f hm] at hfev
        exact absurd hfev (by simp)
      · exact hI.nodupK.not_mem_erase
      · exact updN_self _ _ _
      · exact updB_self _ _ _
      · omega
    | none =>
      exfalso
      have hknown := hI.ev_known f0 hf0
      cases hist_or_lruk_of_known hI hknown with
      | inl hm =>
        rw [hallH f0 hm] at hf0
        exact absurd hf0 (by simp)
      | inr hm =>
        have := List.find?_eq_none.1 hK f0 (List.mem_reverse.2 hm)
        simp [hf0] at this

theorem evict_isSome_of_pos {r : LRUK} (hI : InvR r) (hpos : 0 < r.currSize) :
    ((evict r).2).isSome = true := by
  have hex : ∃ f0, r.isEvictable f0 = true := by
    apply @exists_flag_of_evCard_pos r.replacerSize r.isEvictable
    have h2 : r.currSize = evCard r.replacerSize r.isEvictable := hI.size_eq
    omega
  obtain ⟨f, r', heq, _⟩ := evict_char hI hex
  rw [heq]
  rfl

/-- C3 (divergence at the failing input): with `K = 1` the very first
`record_access` of a frame takes the `count == k_` branch while the frame
is absent from the history list, so the source's unguarded
`history_list_.erase(history_hash_[frame_id])` (line 63) erases through a
default-constructed singular iterator — undefined behavior, not the clean
direct placement into the LRU-K list that the claim asserts.  The model
maps that path to the error result `none`, and the theorem shows it is hit
at the failing input (`K = 1`, capacity 7, first access of frame 1); for
`K = 2` the same first access succeeds, since for `K ≥ 2` the branch only
ever runs with a validly stored iterator for the frame. -/
theorem claim_C3_code_divergence :
    (LRUK.init 7 1).accessCount 1 + 1 = (LRUK.init 7 1).k ∧
    1 ∉ (LRUK.init 7 1).historyList ∧
    recordAccess (LRUK.init 7 1) 1 = none ∧
    (recordAccess (LRUK.init 7 2) 1).isSome = true := by
  refine ⟨rfl, by decide, rfl, rfl⟩

/-- C4: after any operation sequence, `size()` equals the number of known
frames whose evictable flag is set (every flagged frame is known and its id
is within the tracked range). -/
theorem claim_C4 {n kk : Nat} {ops : List ROp} {r : LRUK}
    (h : runR ops (LRUK.init n kk) = r) :
    size r = numEvictable r ∧
    (∀ f, r.isEvictable f = true → 1 ≤ r.accessCount f) ∧
    (∀ f, r.isEvictable f = true → f ≤ r.replacerSize) := by
  subst h
  have hI := runR_init_invR ops n kk
  exact ⟨hI.size_eq, hI.ev_known, hI.ev_bound⟩

theorem claim_C4_witness :
    size (runR [ROp.access 1, ROp.access 2, ROp.setEv 1 true] (LRUK.init 7 2)) =
      numEvictable (runR [ROp.access 1, ROp.access 2, ROp.setEv 1 true] (LRUK.init 7 2)) :=
  (claim_C4 (show runR [ROp.access 1, ROp.access 2, ROp.setEv 1 true] (LRUK.init 7 2) =
    runR [ROp.access 1, ROp.access 2, ROp.setEv 1 true] (LRUK.init 7 2) from rfl)).1

/-- C9: `Remove` on a frame with access count 0 — including ids at or beyond
the capacity — returns normally and leaves the state unchanged, because the
unknown-frame check precedes the evictability and bounds checks. -/
theorem claim_C9 {r : LRUK} {f : Nat} (h : r.accessCount f = 0) :
    removeF r f = some r := by
  unfold removeF
  rw [if_pos h]

theorem claim_C9_witness :
    (LRUK.init 3 2).accessCount 7 = 0 ∧ removeF (LRUK.init 3 2) 7 = some (LRUK.init 3 2) :=
  ⟨by decide, claim_C9 (by decide)⟩

/-- C5 (divergence witness): the source bounds checks use
`frame_id > replacer_size_`, so `RecordAccess` and `SetEvictable` accept a
frame id equal to the capacity instead of failing, while ids strictly
beyond the capacity do fail. -/
theorem claim_C5_code_divergence :
    (recordAccess (LRUK.init 3 2) 3).isSome = true ∧
    (setEvictable (LRUK.init 3 2) 3 true).isSome = true ∧
    (recordAccess (LRUK.init 3 2) 4).isSome = false ∧
    (setEvictable (LRUK.init 3 2) 4 true).isSome = false := by
  refine ⟨rfl, rfl, rfl, rfl⟩

/-- C2: on any reachable state with at least one evictable frame, `evict`
succeeds; the victim is the last evictable frame of the history list (whose
access count is below K), or, when the history list holds no evictable
frame, the last evictable frame of the LRU-K list; the victim leaves both
lists, its count and flag are cleared, and `curr_size` drops by one. -/
theorem claim_C2 {n kk : Nat} {ops : List ROp} {r : LRUK}
    (h : runR ops (LRUK.init n kk) = r) (hev : ∃ f0, r.isEvictable f0 = true) :
    ∃ f r', evict r = (r', some f) ∧ r.isEvictable f = true ∧
      ((r.accessCount f < r.k ∧
        ∃ l1 l2, r.historyList = l1 ++ f :: l2 ∧ ∀ g ∈ l2, r.isEvictable g = false) ∨
       ((∀ g ∈ r.historyList, r.isEvictable g = false) ∧ r.k ≤ r.accessCount f ∧
        ∃ l1 l2, r.lruKList = l1 ++ f :: l2 ∧ ∀ g ∈ l2, r.isEvictable g = false)) ∧
      f ∉ r'.historyList ∧ f ∉ r'.lruKList ∧ r'.accessCount f = 0 ∧
      r'.isEvictable f = false ∧ r'.currSize + 1 = r.currSize := by
  subst h
  exact evict_char (runR_init_invR ops n kk) hev

theorem claim_C2_witness :
    ∃ f r',
      evict (runR [ROp.access 1, ROp.access 1, ROp.access 2, ROp.access 1, ROp.access 2,
          ROp.setEv 1 true, ROp.setEv 2 true] (LRUK.init 3 3)) = (r', some f) ∧
      (runR [ROp.access 1, ROp.access 1, ROp.access 2, ROp.access 1, ROp.access 2,
          ROp.setEv 1 true, ROp.setEv 2 true] (LRUK.init 3 3)).isEvictable f = true ∧
      (((runR [ROp.access 1, ROp.access 1, ROp.access 2, ROp.access 1, ROp.access 2,
          ROp.setEv 1 true, ROp.setEv 2 true] (LRUK.init 3 3)).accessCount f <
          (runR [ROp.access 1, ROp.access 1, ROp.access 2, ROp.access 1, ROp.access 2,
          ROp.setEv 1 true, ROp.setEv 2 true] (LRUK.init 3 3)).k ∧
        ∃ l1 l2, (runR [ROp.access 1, ROp.access 1, ROp.access 2, ROp.access 1, ROp.access 2,
          ROp.setEv 1 true, ROp.setEv 2 true] (LRUK.init 3 3)).historyList = l1 ++ f :: l2 ∧
          ∀ g ∈ l2, (runR [ROp.access 1, ROp.access 1, ROp.access 2, ROp.access 1, ROp.access 2,
            ROp.setEv 1 true, ROp.setEv 2 true] (LRUK.init 3 3)).isEvictable g = false) ∨
       ((∀ g ∈ (runR [ROp.access 1, ROp.access 1, ROp.access 2, ROp.access 1, ROp.access 2,
          ROp.setEv 1 true, ROp.setEv 2 true] (LRUK.init 3 3)).historyList,
            (runR [ROp.access 1, ROp.access 1, ROp.access 2, ROp.access 1, ROp.access 2,
          ROp.setEv 1 true, ROp.setEv 2 true] (LRUK.init 3 3)).isEvictable g = false) ∧
        (runR [ROp.access 1, ROp.access 1, ROp.access 2, ROp.access 1, ROp.access 2,
          ROp.setEv 1 true, ROp.setEv 2 true] (LRUK.init 3 3)).k ≤
          (runR [ROp.access 1, ROp.access 1, ROp.access 2, ROp.access 1, ROp.access 2,
          ROp.setEv 1 true, ROp.setEv 2 true] (LRUK.init 3 3)).accessCount f ∧
        ∃ l1 l2, (runR [ROp.access 1, ROp.access 1, ROp.access 2, ROp.access 1, ROp.access 2,
          ROp.setEv 1 true, ROp.setEv 2 true] (LRUK.init 3 3)).lruKList = l1 ++ f :: l2 ∧
          ∀ g ∈ l2, (runR [ROp.access 1, ROp.access 1, ROp.access 2, ROp.access 1, ROp.access 2,
            ROp.setEv 1 true, ROp.setEv 2 true] (LRUK.init 3 3)).isEvictable g = false)) ∧
      f ∉ r'.historyList ∧ f ∉ r'.lruKList ∧ r'.accessCount f = 0 ∧
      r'.isEvictable f = false ∧ r'.currSize + 1 =
        (runR [ROp.access 1, ROp.access 1, ROp.access 2, ROp.access 1, ROp.access 2,
          ROp.setEv 1 true, ROp.setEv 2 true] (LRUK.init 3 3)).currSize :=
  claim_C2 rfl ⟨1, by decide⟩

/-- C10: whenever `curr_size > 0` on a reachable state, `evict` succeeds:
the fall-through failure branch after the two scans is unreachable. -/
theorem claim_C10 {n kk : Nat} {ops : List ROp} {r : LRUK}
    (h : runR ops (LRUK.init n kk) = r) (hpos : 0 < r.currSize) :
    ((evict r).2).isSome = true := by
  subst h
  exact evict_isSome_of_pos (runR_init_invR ops n kk) hpos

theorem claim_C10_witness :
    ((evict (runR [ROp.access 1, ROp.access 2, ROp.setEv 2 true]
      (LRUK.init 5 2))).2).isSome = true :=
  claim_C10 rfl (by decide)

/-! ## Hash-table invariants: arithmetic and list helpers -/

theorem land_mask_eq_mod (x g : Nat) : Nat.land x (2 ^ g - 1) = x % 2 ^ g := by
  have h : Nat.land x (2 ^ g - 1) = x &&& 2 ^ g - 1 := rfl
  rw [h, Nat.and_pow_two_sub_one_eq_mod]

theorem land_two_pow_ne_zero_iff (x d : Nat) :
    (Nat.land x (2 ^ d) ≠ 0) ↔ x.testBit d = true := by
  have h : Nat.land x (2 ^ d) = x &&& 2 ^ d := rfl
  rw [h, Nat.and_comm, Nat.two_pow_and]
  cases hb : x.testBit d <;> simp [hb, pow_ne_zero d (by omega : (2 : Nat) ≠ 0)]

theorem testBit_of_mod_eq {a b d n : Nat} (hd : d < n) (h : a % 2 ^ n = b % 2 ^ n) :
    a.testBit d = b.testBit d := by
  have h2 := congrArg (fun z => Nat.testBit z d) h
  simpa [Nat.testBit_mod_two_pow, hd] using h2

theorem mod_pow_of_mod_pow_eq {a b d n : Nat} (hd : d ≤ n) (h : a % 2 ^ n = b % 2 ^ n) :
    a % 2 ^ d = b % 2 ^ d := by
  have hdvd : 2 ^ d ∣ 2 ^ n := pow_dvd_pow 2 hd
  calc a % 2 ^ d = a % 2 ^ n % 2 ^ d := (Nat.mod_mod_of_dvd a hdvd).symm
    _ = b % 2 ^ n % 2 ^ d := by rw [h]
    _ = b % 2 ^ d := Nat.mod_mod_of_dvd b hdvd

theorem mod_pow_succ_of_parts {a b d : Nat} (h1 : a % 2 ^ d = b % 2 ^ d)
    (h2 : a.testBit d = b.testBit d) : a % 2 ^ (d + 1) = b % 2 ^ (d + 1) := by
  apply Nat.eq_of_testBit_eq
  intro i
  simp only [Nat.testBit_mod_two_pow]
  rcases Nat.lt_trichotomy i d with hlt | heq | hgt
  · have h3 := congrArg (fun z => Nat.testBit z i) h1
    simp only [Nat.testBit_mod_two_pow, hlt, decide_True, Bool.true_and] at h3
    simp [hlt, Nat.lt_succ_of_lt hlt, h3]
  · subst heq
    simp [h2, Nat.lt_succ_self]
  · have hni : ¬(i < d + 1) := by omega
    simp [hni]

theorem getD_append_left {α : Type} (d : α) (l l2 : List α) {j : Nat}
    (hj : j < l.length) : (l ++ l2).getD j d = l.getD j d := by
  rw [List.getD_eq_get?, List.getD_eq_get?, List.get?_append hj]

theorem getD_append_self {α : Type} (d : α) (l : List α) {j : Nat}
    (hj : j < l.length + l.length) : (l ++ l).getD j d = l.getD (j % l.length) d := by
  by_cases hlt : j < l.length
  · rw [getD_append_left d l l hlt, Nat.mod_eq_of_lt hlt]
  · have hle : l.length ≤ j := by omega
    have hlen0 : 0 < l.length := by omega
    rw [List.getD_eq_get?, List.get?_append_right hle, ← List.getD_eq_get?]
    have hmod : j % l.length = j - l.length := by
      rw [Nat.mod_eq_sub_mod hle, Nat.mod_eq_of_lt (by omega)]
    rw [hmod]

theorem getD_append_two_left {α : Type} (d : α) (l : List α) (a b : α) {j : Nat}
    (hj : j < l.length) : (l ++ [a, b]).getD j d = l.getD j d :=
  getD_append_left d l [a, b] hj

theorem getD_append_two_fst {α : Type} (d : α) (l : List α) (a b : α) :
    (l ++ [a, b]).getD l.length d = a := by
  rw [List.getD_eq_get?, List.get?_append_right (Nat.le_refl _)]
  simp

theorem getD_append_two_snd {α : Type} (d : α) (l : List α) (a b : α) :
    (l ++ [a, b]).getD (l.length + 1) d = b := by
  rw [List.getD_eq_get?, List.get?_append_right (by omega)]
  simp

theorem getD_set_same {α : Type} (d : α) (l : List α) {i : Nat} (a : α)
    (hi : i < l.length) : (l.set i a).getD i d = a := by
  rw [List.getD_eq_get?, List.get?_set_eq_of_lt a hi]
  rfl

theorem getD_set_ne {α : Type} (d : α) (l : List α) {i j : Nat} (a : α)
    (hij : i ≠ j) : (l.set i a).getD j d = l.getD j d := by
  rw [List.getD_eq_get?, List.get?_set_ne a l hij, ← List.getD_eq_get?]

theorem getD_enum_map (l : List Nat) (f : Nat × Nat → Nat) {j : Nat}
    (hj : j < l.length) : (l.enum.map f).getD j 0 = f (j, l.getD j 0) := by
  rw [List.getD_eq_get?, List.get?_map, List.get?_enum]
  cases hv : l.get? j with
  | none =>
    exact absurd (List.get?_eq_none.1 hv) (by omega)
  | some v =>
    rw [List.getD_eq_get?, hv]
    rfl

theorem length_enum_map (l : List Nat) (f : Nat × Nat → Nat) :
    (l.enum.map f).length = l.length := by
  rw [List.length_map, List.enum_length]

theorem find?_filter_eq {α : Type} {l : List α} {p q : α → Bool}
    (h : ∀ x ∈ l, p x = true → q x = true) :
    (l.filter q).find? p = l.find? p := by
  induction l with
  | nil => rfl
  | cons x rest ih =>
    have hrest : ∀ y ∈ rest, p y = true → q y = true :=
      fun y hy => h y (List.mem_cons_of_mem x hy)
    cases hq : q x
    · have hp : p x = false := by
        cases hp : p x
        · rfl
        · rw [h x (List.mem_cons_self x rest) hp] at hq; cases hq
      rw [List.filter_cons_of_neg (by simp [hq]), List.find?_cons, hp, ih hrest]
    · rw [List.filter_cons_of_pos (by simp [hq]), List.find?_cons, List.find?_cons]
      cases hp : p x
      · exact ih hrest
      · rfl

theorem indexOf_eq_mod (t : EHT K V) (key : K) :
    IndexOf hash t key = hash key % 2 ^ t.globalDepth :=
  land_mask_eq_mod _ _

theorem two_pow_pos' (g : Nat) : 0 < 2 ^ g := Nat.pos_pow_of_pos g (by omega)

theorem indexOf_lt {t : EHT K V} (hL : t.dir.length = 2 ^ t.globalDepth) (key : K) :
    IndexOf hash t key < t.dir.length := by
  rw [indexOf_eq_mod, hL]
  exact Nat.mod_lt _ (two_pow_pos' _)

theorem mod_mod_pow {j d g : Nat} (hd : d ≤ g) : j % 2 ^ g % 2 ^ d = j % 2 ^ d :=
  Nat.mod_mod_of_dvd j (pow_dvd_pow 2 hd)

theorem inv_empty (bs : Nat) : Inv (K := K) (V := V) hash (EHT.empty bs) := by
  have hdir : ∀ j, j < (EHT.empty (K := K) (V := V) bs).dir.length → j = 0 := by
    intro j hj
    simpa [EHT.empty] using Nat.lt_one_iff.1 (by simpa [EHT.empty] using hj)
  refine ⟨by simp [EHT.empty], ?_, ?_, ?_, ?_, ?_, ?_, ?_⟩
  · intro j hj; cases hdir j hj; simp [EHT.empty, dirAt]
  · intro j hj; cases hdir j hj; simp [EHT.empty, dirAt, bucketAt]
  · intro j hj; cases hdir j hj; simp [EHT.empty, dirAt, bucketAt]
  · intro j hj; cases hdir j hj; simp [EHT.empty, dirAt, bucketAt]
  · intro j hj; cases hdir j hj; intro it hit
    simp [EHT.empty, dirAt, bucketAt] at hit
  · intro j1 hj1 j2 hj2; cases hdir j1 hj1; cases hdir j2 hj2; simp
  · intro j hj; cases hdir j hj; simp [EHT.empty, dirAt, bucketAt]

theorem pow_succ_two (g : Nat) : 2 ^ (g + 1) = 2 ^ g + 2 ^ g := by ring

theorem doubleDir_dirAt {t : EHT K V} (hL : t.dir.length = 2 ^ t.globalDepth)
    {j : Nat} (hj : j < 2 ^ (t.globalDepth + 1)) :
    dirAt (doubleDir t) j = dirAt t (j % 2 ^ t.globalDepth) := by
  unfold doubleDir dirAt
  dsimp only
  rw [← hL]
  exact getD_append_self 0 t.dir (by rw [hL]; rw [pow_succ_two] at hj; omega)

theorem doubleDir_bucketAt {t : EHT K V} (hL : t.dir.length = 2 ^ t.globalDepth)
    {j : Nat} (hj : j < 2 ^ (t.globalDepth + 1)) :
    bucketAt (doubleDir t) j = bucketAt t (j % 2 ^ t.globalDepth) := by
  unfold bucketAt
  rw [doubleDir_dirAt hL hj]
  rfl

theorem doubleDir_inv {t : EHT K V} (hI : Inv hash t) : Inv hash (doubleDir t) := by
  have hL := hI.dirLen
  have hlen : (doubleDir t).dir.length = 2 ^ ((doubleDir t).globalDepth) := by
    unfold doubleDir
    dsimp only
    rw [List.length_append, hL, pow_succ_two]
  have hg' : (doubleDir t).globalDepth = t.globalDepth + 1 := rfl
  have hmlt : ∀ j : Nat, j % 2 ^ t.globalDepth < t.dir.length := by
    intro j; rw [hL]; exact Nat.mod_lt _ (two_pow_pos' _)
  refine ⟨hlen, ?_, ?_, ?_, ?_, ?_, ?_, ?_⟩
  · intro j hj
    rw [hlen, hg'] at hj
    rw [doubleDir_dirAt hL hj]
    exact hI.ref _ (hmlt j)
  · intro j hj
    rw [hlen, hg'] at hj
    rw [doubleDir_bucketAt hL hj, hg']
    exact Nat.le_succ_of_le (hI.depthLe _ (hmlt j))
  · intro j hj
    rw [hlen, hg'] at hj
    rw [doubleDir_bucketAt hL hj]
    exact hI.sizeEq _ (hmlt j)
  · intro j hj
    rw [hlen, hg'] at hj
    rw [doubleDir_bucketAt hL hj]
    exact hI.lenLe _ (hmlt j)
  · intro j hj it hit
    rw [hlen, hg'] at hj
    rw [doubleDir_bucketAt hL hj] at hit ⊢
    have hd := hI.depthLe _ (hmlt j)
    have hk := hI.keyBits _ (hmlt j) it hit
    rw [hk, mod_mod_pow hd]
  · intro j1 hj1 j2 hj2
    rw [hlen, hg'] at hj1 hj2
    rw [doubleDir_dirAt hL hj1, doubleDir_dirAt hL hj2, doubleDir_bucketAt hL hj1]
    have hd := hI.depthLe _ (hmlt j1)
    rw [hI.sharedIff _ (hmlt j1) _ (hmlt j2), mod_mod_pow hd, mod_mod_pow hd]
  · intro j hj
    rw [hlen, hg'] at hj
    rw [doubleDir_bucketAt hL hj]
    exact hI.nodup _ (hmlt j)

theorem doubleDir_find {t : EHT K V} (hI : Inv hash t) (k : K) :
    find hash (doubleDir t) k = find hash t k := by
  unfold find
  have hg' : (doubleDir t).globalDepth = t.globalDepth + 1 := rfl
  have hj : IndexOf hash (doubleDir t) k < 2 ^ (t.globalDepth + 1) := by
    rw [indexOf_eq_mod, hg']
    exact Nat.mod_lt _ (two_pow_pos' _)
  rw [doubleDir_bucketAt hI.dirLen hj]
  congr 1
  rw [indexOf_eq_mod, indexOf_eq_mod, hg', mod_mod_pow (Nat.le_succ _)]

theorem binsert_append {b : Bucket K V} {key : K} {value : V}
    (hlen : b.list.length < b.size) (habsent : ∀ x ∈ b.list, x.1 ≠ key) :
    binsert b key value = ({ b with list := b.list ++ [(key, value)] }, true) := by
  unfold binsert
  rw [if_neg, if_neg]
  · rw [Option.isSome_iff_exists]
    push_neg
    intro v hv
    have h2 := List.find?_some hv
    have h3 := List.mem_of_find?_eq_some hv
    exact absurd (of_decide_eq_true h2) (habsent v h3)
  · simp only [Bucket.isFull, beq_iff_eq]
    omega

theorem redistribute_eq (m : Nat) (l : List (K × V)) :
    ∀ (b0 b1 : Bucket K V),
    (l.map Prod.fst).Nodup →
    (∀ it ∈ l, it.1 ∉ b0.list.map Prod.fst) →
    (∀ it ∈ l, it.1 ∉ b1.list.map Prod.fst) →
    b0.list.length + l.length ≤ b0.size →
    b1.list.length + l.length ≤ b1.size →
    redistribute hash m l (b0, b1) =
      ({ b0 with list := b0.list ++ l.filter (fun it => !decide (Nat.land (hash it.1) m ≠ 0)) },
       { b1 with list := b1.list ++ l.filter (fun it => decide (Nat.land (hash it.1) m ≠ 0)) }) := by
  induction l with
  | nil =>
    intro b0 b1 _ _ _ _ _
    simp [redistribute]
  | cons it rest ih =>
    obtain ⟨k1, v1⟩ := it
    intro b0 b1 hnd h0 h1 hl0 hl1
    have hnd' : (rest.map Prod.fst).Nodup := (List.nodup_cons.1 (by simpa using hnd)).2
    have hhead : k1 ∉ rest.map Prod.fst := (List.nodup_cons.1 (by simpa using hnd)).1
    rw [redistribute]
    by_cases hbit : Nat.land (hash k1) m ≠ 0
    · rw [if_pos hbit]
      have hins : binsert b1 k1 v1 = ({ b1 with list := b1.list ++ [(k1, v1)] }, true) := by
        refine binsert_append (by simp at hl1; omega) ?_
        intro x hx hxk
        exact h1 (k1, v1) (List.mem_cons_self _ _)
          (List.mem_map.2 ⟨x, hx, hxk⟩)
      rw [hins]
      dsimp only
      rw [ih b0 { b1 with list := b1.list ++ [(k1, v1)] }
        hnd'
        (fun x hx => h0 x (List.mem_cons_of_mem _ hx))
        ?_ ?_ ?_]
      · simp [List.filter_cons, hbit]
      · intro x hx
        simp only [List.map_append, List.mem_append, List.map_cons, List.map_nil,
          List.mem_singleton]
        rintro (hmem | hk)
        · exact h1 x (List.mem_cons_of_mem _ hx) hmem
        · exact hhead (hk ▸ List.mem_map.2 ⟨x, hx, rfl⟩)
      · simpa using by simp at hl0; omega
      · simp only [List.length_append, List.length_singleton]
        simp at hl1; omega
    · rw [if_neg hbit]
      have hins : binsert b0 k1 v1 = ({ b0 with list := b0.list ++ [(k1, v1)] }, true) := by
        refine binsert_append (by simp at hl0; omega) ?_
        intro x hx hxk
        exact h0 (k1, v1) (List.mem_cons_self _ _)
          (List.mem_map.2 ⟨x, hx, hxk⟩)
      rw [hins]
      dsimp only
      rw [ih { b0 with list := b0.list ++ [(k1, v1)] } b1
        hnd'
        ?_
        (fun x hx => h1 x (List.mem_cons_of_mem _ hx))
        ?_ ?_]
      · have hz : (hash k1).land m = 0 := not_not.1 hbit
        simp [List.filter_cons, hbit, hz]
      · intro x hx
        simp only [List.map_append, List.mem_append, List.map_cons, List.map_nil,
          List.mem_singleton]
        rintro (hmem | hk)
        · exact h0 x (List.mem_cons_of_mem _ hx) hmem
        · exact hhead (hk ▸ List.mem_map.2 ⟨x, hx, rfl⟩)
      · simp only [List.length_append, List.length_singleton]
        simp at hl0; omega
      · simpa using by simp at hl1; omega

theorem splitBucket_globalDepth (t : EHT K V) (bid : Nat) :
    (splitBucket hash t bid).globalDepth = t.globalDepth := rfl

theorem splitBucket_bucketSize (t : EHT K V) (bid : Nat) :
    (splitBucket hash t bid).bucketSize = t.bucketSize := rfl

theorem splitBucket_numBuckets (t : EHT K V) (bid : Nat) :
    (splitBucket hash t bid).numBuckets = t.numBuckets + 1 := rfl

theorem splitBucket_dir_length (t : EHT K V) (bid : Nat) :
    (splitBucket hash t bid).dir.length = t.dir.length := by
  unfold splitBucket
  exact length_enum_map _ _

theorem splitBucket_dirAt (t : EHT K V) (bid : Nat) {j : Nat} (hj : j < t.dir.length) :
    dirAt (splitBucket hash t bid) j =
      if dirAt t j = bid then
        (if Nat.land j (2 ^ (t.pool.getD bid ⟨0, 0, []⟩).depth) ≠ 0 then
          t.pool.length + 1
        else t.pool.length)
      else dirAt t j := by
  unfold splitBucket dirAt
  dsimp only
  rw [getD_enum_map _ _ hj]

theorem splitBucket_pool {t : EHT K V} {bid : Nat}
    (hnd : ((t.pool.getD bid ⟨0, 0, []⟩).list.map Prod.fst).Nodup)
    (hlen : (t.pool.getD bid ⟨0, 0, []⟩).list.length ≤ t.bucketSize) :
    (splitBucket hash t bid).pool = t.pool ++ [splitB0 hash t bid, splitB1 hash t bid] := by
  unfold splitBucket
  dsimp only
  rw [redistribute_eq hash _ _ _ _ hnd (by simp) (by simp) (by simpa using hlen) (by simpa using hlen)]
  rfl

theorem land_two_pow_eq_zero_iff (x d : Nat) :
    Nat.land x (2 ^ d) = 0 ↔ x.testBit d = false := by
  have h := land_two_pow_ne_zero_iff x d
  cases hb : x.testBit d <;> rw [hb] at h <;> simp_all

theorem mod_succ_iff_of_mod_eq {j1 j2 d : Nat} (h : j1 % 2 ^ d = j2 % 2 ^ d) :
    (j1 % 2 ^ (d + 1) = j2 % 2 ^ (d + 1)) ↔ (j1.testBit d = j2.testBit d) :=
  ⟨testBit_of_mod_eq (Nat.lt_succ_self d), fun hb => mod_pow_succ_of_parts h hb⟩

theorem splitB0_depth (t : EHT K V) (bid : Nat) :
    (splitB0 hash t bid).depth = (t.pool.getD bid ⟨0, 0, []⟩).depth + 1 := rfl

theorem splitB1_depth (t : EHT K V) (bid : Nat) :
    (splitB1 hash t bid).depth = (t.pool.getD bid ⟨0, 0, []⟩).depth + 1 := rfl

theorem splitB0_list (t : EHT K V) (bid : Nat) :
    (splitB0 hash t bid).list = (t.pool.getD bid ⟨0, 0, []⟩).list.filter
      (fun it => !decide (Nat.land (hash it.1)
        (2 ^ (t.pool.getD bid ⟨0, 0, []⟩).depth) ≠ 0)) := rfl

theorem splitB1_list (t : EHT K V) (bid : Nat) :
    (splitB1 hash t bid).list = (t.pool.getD bid ⟨0, 0, []⟩).list.filter
      (fun it => decide (Nat.land (hash it.1)
        (2 ^ (t.pool.getD bid ⟨0, 0, []⟩).depth) ≠ 0)) := rfl

theorem splitBucket_ok {t : EHT K V} {bid i₀ : Nat}
    (hI : Inv hash t) (hi : i₀ < t.dir.length) (hbid : dirAt t i₀ = bid)
    (hdepth : (t.pool.getD bid ⟨0, 0, []⟩).depth + 1 ≤ t.globalDepth) :
    Inv hash (splitBucket hash t bid) ∧
    (∀ k, find hash (splitBucket hash t bid) k = find hash t k) := by
  have horig : bucketAt t i₀ = t.pool.getD bid ⟨0, 0, []⟩ := by
    unfold bucketAt; rw [hbid]
  have hbidP : bid < t.pool.length := by rw [← hbid]; exact hI.ref i₀ hi
  have hnd : ((t.pool.getD bid ⟨0, 0, []⟩).list.map Prod.fst).Nodup := by
    have h := hI.nodup i₀ hi; rwa [horig] at h
  have hlenO : (t.pool.getD bid ⟨0, 0, []⟩).list.length ≤ t.bucketSize := by
    have h := hI.lenLe i₀ hi; rwa [horig] at h
  have hpool := splitBucket_pool hash hnd hlenO
  have hdirlen := splitBucket_dir_length hash t bid
  have hF4 : ∀ j, j < t.dir.length →
      (dirAt t j = bid ↔
        j % 2 ^ (t.pool.getD bid ⟨0, 0, []⟩).depth =
          i₀ % 2 ^ (t.pool.getD bid ⟨0, 0, []⟩).depth) := by
    intro j hj
    have h := hI.sharedIff i₀ hi j hj
    rw [horig, hbid] at h
    constructor
    · intro hbj
      exact (h.1 hbj.symm).symm
    · intro hm
      exact (h.2 hm.symm).symm
  have hBA : ∀ j, j < t.dir.length →
      bucketAt (splitBucket hash t bid) j =
        (if dirAt t j = bid then
          (if Nat.land j (2 ^ (t.pool.getD bid ⟨0, 0, []⟩).depth) ≠ 0 then
            splitB1 hash t bid
          else splitB0 hash t bid)
         else bucketAt t j) := by
    intro j hj
    unfold bucketAt
    rw [splitBucket_dirAt hash t bid hj, hpool]
    by_cases hc : dirAt t j = bid
    · rw [if_pos hc, if_pos hc]
      by_cases hb : Nat.land j (2 ^ (t.pool.getD bid ⟨0, 0, []⟩).depth) ≠ 0
      · rw [if_pos hb, if_pos hb]
        exact getD_append_two_snd _ _ _ _
      · rw [if_neg hb, if_neg hb]
        exact getD_append_two_fst _ _ _ _
    · rw [if_neg hc, if_neg hc]
      exact getD_append_two_left _ _ _ _ (hI.ref j hj)
  have hglobal : (splitBucket hash t bid).globalDepth = t.globalDepth := rfl
  have hfind : ∀ k, find hash (splitBucket hash t bid) k = find hash t k := by
    intro k
    unfold find
    have hidx : IndexOf hash (splitBucket hash t bid) k = IndexOf hash t k := rfl
    rw [hidx]
    have hj : IndexOf hash t k < t.dir.length := indexOf_lt hash hI.dirLen k
    rw [hBA _ hj]
    by_cases hc : dirAt t (IndexOf hash t k) = bid
    · rw [if_pos hc]
      have hbucket : bucketAt t (IndexOf hash t k) = t.pool.getD bid ⟨0, 0, []⟩ := by
        unfold bucketAt; rw [hc]
      rw [hbucket]
      have htb : Nat.testBit (IndexOf hash t k) (t.pool.getD bid ⟨0, 0, []⟩).depth =
          Nat.testBit (hash k) (t.pool.getD bid ⟨0, 0, []⟩).depth := by
        rw [indexOf_eq_mod, Nat.testBit_mod_two_pow]
        have hdg : (t.pool.getD bid ⟨0, 0, []⟩).depth < t.globalDepth := by omega
        simp only [hdg, decide_True, Bool.true_and]
      by_cases hb : Nat.land (IndexOf hash t k)
          (2 ^ (t.pool.getD bid ⟨0, 0, []⟩).depth) ≠ 0
      · rw [if_pos hb]
        unfold bfind splitB1
        dsimp only
        apply congrArg
        apply find?_filter_eq
        intro x _ hpx
        have hxk : x.1 = k := of_decide_eq_true hpx
        have hbk : Nat.testBit (hash k) (t.pool.getD bid ⟨0, 0, []⟩).depth = true := by
          have h2 := (land_two_pow_ne_zero_iff _ _).1 hb
          rwa [htb] at h2
        rw [hxk]
        exact decide_eq_true ((land_two_pow_ne_zero_iff _ _).2 hbk)
      · rw [if_neg hb]
        unfold bfind splitB0
        dsimp only
        apply congrArg
        apply find?_filter_eq
        intro x _ hpx
        have hxk : x.1 = k := of_decide_eq_true hpx
        have hbk : Nat.testBit (hash k) (t.pool.getD bid ⟨0, 0, []⟩).depth = false := by
          have h2 : Nat.land (IndexOf hash t k)
              (2 ^ (t.pool.getD bid ⟨0, 0, []⟩).depth) = 0 := not_not.1 hb
          have h3 := (land_two_pow_eq_zero_iff _ _).1 h2
          rwa [htb] at h3
        rw [hxk]
        have h4 := (land_two_pow_eq_zero_iff (hash k)
          (t.pool.getD bid ⟨0, 0, []⟩).depth).2 hbk
        rw [h4]
        rfl
    · rw [if_neg hc]
  refine ⟨⟨?_, ?_, ?_, ?_, ?_, ?_, ?_, ?_⟩, hfind⟩
  · rw [hdirlen, hglobal]; exact hI.dirLen
  · intro j hj
    rw [hdirlen] at hj
    rw [splitBucket_dirAt hash t bid hj, hpool]
    rw [List.length_append]
    by_cases hc : dirAt t j = bid
    · rw [if_pos hc]
      by_cases hb : Nat.land j (2 ^ (t.pool.getD bid ⟨0, 0, []⟩).depth) ≠ 0
      · rw [if_pos hb]; simp
      · rw [if_neg hb]; simp
    · rw [if_neg hc]
      have := hI.ref j hj
      simp; omega
  · intro j hj
    rw [hdirlen] at hj
    rw [hBA _ hj, hglobal]
    by_cases hc : dirAt t j = bid
    · rw [if_pos hc]
      by_cases hb : Nat.land j (2 ^ (t.pool.getD bid ⟨0, 0, []⟩).depth) ≠ 0
      · rw [if_pos hb, splitB1_depth]; exact hdepth
      · rw [if_neg hb, splitB0_depth]; exact hdepth
    · rw [if_neg hc]; exact hI.depthLe j hj
  · intro j hj
    rw [hdirlen] at hj
    rw [hBA _ hj, splitBucket_bucketSize]
    by_cases hc : dirAt t j = bid
    · rw [if_pos hc]
      by_cases hb : Nat.land j (2 ^ (t.pool.getD bid ⟨0, 0, []⟩).depth) ≠ 0
      · rw [if_pos hb]; rfl
      · rw [if_neg hb]; rfl
    · rw [if_neg hc]; exact hI.sizeEq j hj
  · intro j hj
    rw [hdirlen] at hj
    rw [hBA _ hj, splitBucket_bucketSize]
    by_cases hc : dirAt t j = bid
    · rw [if_pos hc]
      by_cases hb : Nat.land j (2 ^ (t.pool.getD bid ⟨0, 0, []⟩).depth) ≠ 0
      · rw [if_pos hb]
        exact le_trans (List.length_filter_le _ _) hlenO
      · rw [if_neg hb]
        exact le_trans (List.length_filter_le _ _) hlenO
    · rw [if_neg hc]; exact hI.lenLe j hj
  · intro j hj it hit
    rw [hdirlen] at hj
    rw [hBA _ hj] at hit ⊢
    by_cases hc : dirAt t j = bid
    · rw [if_pos hc] at hit ⊢
      have hbj : bucketAt t j = t.pool.getD bid ⟨0, 0, []⟩ := by
        unfold bucketAt; rw [hc]
      have hkb : hash it.1 % 2 ^ (t.pool.getD bid ⟨0, 0, []⟩).depth =
          j % 2 ^ (t.pool.getD bid ⟨0, 0, []⟩).depth := by
        by_cases hb : Nat.land j (2 ^ (t.pool.getD bid ⟨0, 0, []⟩).depth) ≠ 0
        · rw [if_pos hb, splitB1_list] at hit
          have h2 := hI.keyBits j hj it (by
            rw [hbj]
            exact List.mem_of_mem_filter hit)
          rwa [hbj] at h2
        · rw [if_neg hb, splitB0_list] at hit
          have h2 := hI.keyBits j hj it (by
            rw [hbj]
            exact List.mem_of_mem_filter hit)
          rwa [hbj] at h2
      by_cases hb : Nat.land j (2 ^ (t.pool.getD bid ⟨0, 0, []⟩).depth) ≠ 0
      · rw [if_pos hb] at hit ⊢
        rw [splitB1_depth]
        rw [splitB1_list, List.mem_filter] at hit
        have hbit1 : (hash it.1).testBit (t.pool.getD bid ⟨0, 0, []⟩).depth = true :=
          (land_two_pow_ne_zero_iff _ _).1 (of_decide_eq_true hit.2)
        have hbitj : j.testBit (t.pool.getD bid ⟨0, 0, []⟩).depth = true :=
          (land_two_pow_ne_zero_iff _ _).1 hb
        exact mod_pow_succ_of_parts hkb (hbit1.trans hbitj.symm)
      · rw [if_neg hb] at hit ⊢
        rw [splitB0_depth]
        rw [splitB0_list, List.mem_filter] at hit
        have hz1 : Nat.land (hash it.1) (2 ^ (t.pool.getD bid ⟨0, 0, []⟩).depth) = 0 := by
          have hfb : (!decide (Nat.land (hash it.1)
              (2 ^ (t.pool.getD bid ⟨0, 0, []⟩).depth) ≠ 0)) = true := hit.2
          rw [Bool.not_eq_true'] at hfb
          exact not_not.1 (of_decide_eq_false hfb)
        have hbit1 : (hash it.1).testBit (t.pool.getD bid ⟨0, 0, []⟩).depth = false :=
          (land_two_pow_eq_zero_iff _ _).1 hz1
        have hbitj : j.testBit (t.pool.getD bid ⟨0, 0, []⟩).depth = false :=
          (land_two_pow_eq_zero_iff _ _).1 (not_not.1 hb)
        exact mod_pow_succ_of_parts hkb (hbit1.trans hbitj.symm)
    · rw [if_neg hc] at hit ⊢
      exact hI.keyBits j hj it hit
  · intro j1 hj1 j2 hj2
    rw [hdirlen] at hj1 hj2
    rw [splitBucket_dirAt hash t bid hj1, splitBucket_dirAt hash t bid hj2, hBA _ hj1]
    by_cases hc1 : dirAt t j1 = bid <;> by_cases hc2 : dirAt t j2 = bid
    · rw [if_pos hc1, if_pos hc1, if_pos hc2]
      have hm1 := (hF4 j1 hj1).1 hc1
      have hm2 := (hF4 j2 hj2).1 hc2
      have hmm : j1 % 2 ^ (t.pool.getD bid ⟨0, 0, []⟩).depth =
          j2 % 2 ^ (t.pool.getD bid ⟨0, 0, []⟩).depth := hm1.trans hm2.symm
      have hdep : (if Nat.land j1 (2 ^ (t.pool.getD bid ⟨0, 0, []⟩).depth) ≠ 0 then
          splitB1 hash t bid else splitB0 hash t bid).depth =
          (t.pool.getD bid ⟨0, 0, []⟩).depth + 1 := by
        by_cases hb1 : Nat.land j1 (2 ^ (t.pool.getD bid ⟨0, 0, []⟩).depth) ≠ 0
        · rw [if_pos hb1]; rfl
        · rw [if_neg hb1]; rfl
      rw [hdep]
      by_cases hb1 : Nat.land j1 (2 ^ (t.pool.getD bid ⟨0, 0, []⟩).depth) ≠ 0 <;>
        by_cases hb2 : Nat.land j2 (2 ^ (t.pool.getD bid ⟨0, 0, []⟩).depth) ≠ 0
      · rw [if_pos hb1, if_pos hb2]
        have ht1 := (land_two_pow_ne_zero_iff j1 _).1 hb1
        have ht2 := (land_two_pow_ne_zero_iff j2 _).1 hb2
        constructor
        · intro _
          exact (mod_succ_iff_of_mod_eq hmm).2 (ht1.trans ht2.symm)
        · intro _; rfl
      · rw [if_pos hb1, if_neg hb2]
        have ht1 := (land_two_pow_ne_zero_iff j1 _).1 hb1
        have ht2 := (land_two_pow_eq_zero_iff j2
          (t.pool.getD bid ⟨0, 0, []⟩).depth).1 (not_not.1 hb2)
        constructor
        · intro h; omega
        · intro h
          have h2 := (mod_succ_iff_of_mod_eq hmm).1 h
          rw [ht1, ht2] at h2
          cases h2
      · rw [if_neg hb1, if_pos hb2]
        have ht1 := (land_two_pow_eq_zero_iff j1
          (t.pool.getD bid ⟨0, 0, []⟩).depth).1 (not_not.1 hb1)
        have ht2 := (land_two_pow_ne_zero_iff j2 _).1 hb2
        constructor
        · intro h; omega
        · intro h
          have h2 := (mod_succ_iff_of_mod_eq hmm).1 h
          rw [ht1, ht2] at h2
          cases h2
      · rw [if_neg hb1, if_neg hb2]
        have ht1 := (land_two_pow_eq_zero_iff j1
          (t.pool.getD bid ⟨0, 0, []⟩).depth).1 (not_not.1 hb1)
        have ht2 := (land_two_pow_eq_zero_iff j2
          (t.pool.getD bid ⟨0, 0, []⟩).depth).1 (not_not.1 hb2)
        constructor
        · intro _
          exact (mod_succ_iff_of_mod_eq hmm).2 (ht1.trans ht2.symm)
        · intro _; rfl
    · rw [if_pos hc1, if_pos hc1, if_neg hc2]
      have hd1 : (if Nat.land j1 (2 ^ (t.pool.getD bid ⟨0, 0, []⟩).depth) ≠ 0 then
          t.pool.length + 1 else t.pool.length) ≠ dirAt t j2 := by
        have := hI.ref j2 hj2
        by_cases hb1 : Nat.land j1 (2 ^ (t.pool.getD bid ⟨0, 0, []⟩).depth) ≠ 0
        · rw [if_pos hb1]; omega
        · rw [if_neg hb1]; omega
      constructor
      · intro h; exact absurd h hd1
      · intro h
        exfalso
        have hdd : (if Nat.land j1 (2 ^ (t.pool.getD bid ⟨0, 0, []⟩).depth) ≠ 0 then
            splitB1 hash t bid else splitB0 hash t bid).depth =
            (t.pool.getD bid ⟨0, 0, []⟩).depth + 1 := by
          by_cases hb1 : Nat.land j1 (2 ^ (t.pool.getD bid ⟨0, 0, []⟩).depth) ≠ 0
          · rw [if_pos hb1]; rfl
          · rw [if_neg hb1]; rfl
        rw [hdd] at h
        have hmd := mod_pow_of_mod_pow_eq (Nat.le_succ _) h
        have hm1 := (hF4 j1 hj1).1 hc1
        exact hc2 ((hF4 j2 hj2).2 (hmd.symm.trans hm1))
    · rw [if_neg hc1, if_pos hc2, if_neg hc1]
      have hd1 : dirAt t j1 ≠ (if Nat.land j2 (2 ^ (t.pool.getD bid ⟨0, 0, []⟩).depth) ≠ 0
          then t.pool.length + 1 else t.pool.length) := by
        have := hI.ref j1 hj1
        by_cases hb2 : Nat.land j2 (2 ^ (t.pool.getD bid ⟨0, 0, []⟩).depth) ≠ 0
        · rw [if_pos hb2]; omega
        · rw [if_neg hb2]; omega
      constructor
      · intro h; exact absurd h hd1
      · intro h
        exfalso
        have hsh := (hI.sharedIff j1 hj1 j2 hj2).2 h
        exact hc1 (hsh.trans hc2)
    · rw [if_neg hc1, if_neg hc1, if_neg hc2]
      exact hI.sharedIff j1 hj1 j2 hj2
  · intro j hj
    rw [hdirlen] at hj
    rw [hBA _ hj]
    by_cases hc : dirAt t j = bid
    · rw [if_pos hc]
      by_cases hb : Nat.land j (2 ^ (t.pool.getD bid ⟨0, 0, []⟩).depth) ≠ 0
      · rw [if_pos hb, splitB1_list]
        exact ((List.filter_sublist _).map Prod.fst).nodup hnd
      · rw [if_neg hb, splitB0_list]
        exact ((List.filter_sublist _).map Prod.fst).nodup hnd
    · rw [if_neg hc]; exact hI.nodup j hj

theorem stepOnce_bucketSize (t : EHT K V) (key : K) :
    (stepOnce hash t key).bucketSize = t.bucketSize := by
  unfold stepOnce
  dsimp only
  by_cases hc : (t.pool.getD (dirAt t (IndexOf hash t key)) ⟨0, 0, []⟩).depth = t.globalDepth
  · rw [if_pos hc]; rfl
  · rw [if_neg hc]; rfl

theorem stepOnce_ok {t : EHT K V} (hI : Inv hash t) (key : K) :
    Inv hash (stepOnce hash t key) ∧
    (∀ k, find hash (stepOnce hash t key) k = find hash t k) := by
  unfold stepOnce
  dsimp only
  have hi0 : IndexOf hash t key < t.dir.length := indexOf_lt hash hI.dirLen key
  by_cases hc : (t.pool.getD (dirAt t (IndexOf hash t key)) ⟨0, 0, []⟩).depth = t.globalDepth
  · rw [if_pos hc]
    have hIdd := doubleDir_inv hash hI
    have hi0' : IndexOf hash t key < (doubleDir t).dir.length := by
      unfold doubleDir
      dsimp only
      rw [List.length_append]
      omega
    have hbid' : dirAt (doubleDir t) (IndexOf hash t key) =
        dirAt t (IndexOf hash t key) := by
      have hj2 : IndexOf hash t key < 2 ^ (t.globalDepth + 1) := by
        have h3 : (2 : Nat) ^ t.globalDepth ≤ 2 ^ (t.globalDepth + 1) :=
          Nat.pow_le_pow_right (by omega) (by omega)
        have h4 : IndexOf hash t key < 2 ^ t.globalDepth := by
          rw [← hI.dirLen]; exact hi0
        omega
      rw [doubleDir_dirAt hI.dirLen hj2,
        Nat.mod_eq_of_lt (by rw [← hI.dirLen]; exact hi0)]
    have hdep : ((doubleDir t).pool.getD (dirAt t (IndexOf hash t key))
        ⟨0, 0, []⟩).depth + 1 ≤ (doubleDir t).globalDepth := by
      show (t.pool.getD (dirAt t (IndexOf hash t key)) ⟨0, 0, []⟩).depth + 1 ≤
        t.globalDepth + 1
      omega
    obtain ⟨hInv2, hfind2⟩ := splitBucket_ok hash hIdd hi0' hbid' hdep
    exact ⟨hInv2, fun k => (hfind2 k).trans (doubleDir_find hash hI k)⟩
  · rw [if_neg hc]
    have hdep : (t.pool.getD (dirAt t (IndexOf hash t key)) ⟨0, 0, []⟩).depth + 1 ≤
        t.globalDepth := by
      have h2 := hI.depthLe _ hi0
      unfold bucketAt at h2
      omega
    exact splitBucket_ok hash hI hi0 rfl hdep

theorem insertLoop_ok {fuel : Nat} : ∀ {t t' : EHT K V} {key : K},
    Inv hash t → insertLoop hash fuel t key = some t' →
    Inv hash t' ∧ (∀ k, find hash t' k = find hash t k) ∧
    (bucketAt t' (IndexOf hash t' key)).isFull = false ∧
    t'.bucketSize = t.bucketSize := by
  induction fuel with
  | zero =>
    intro t t' key hI h
    unfold insertLoop at h
    by_cases hf : (bucketAt t (IndexOf hash t key)).isFull
    · rw [if_pos hf] at h; cases h
    · rw [if_neg hf] at h
      cases Option.some.inj h
      refine ⟨hI, fun k => rfl, ?_, rfl⟩
      cases h2 : (bucketAt t (IndexOf hash t key)).isFull
      · rfl
      · exact absurd h2 hf
  | succ fuel ih =>
    intro t t' key hI h
    unfold insertLoop at h
    by_cases hf : (bucketAt t (IndexOf hash t key)).isFull
    · rw [if_pos hf] at h
      obtain ⟨hI2, hfind2⟩ := stepOnce_ok hash hI key
      obtain ⟨hI3, hfind3, hfull3, hbs3⟩ := ih hI2 h
      exact ⟨hI3, fun k => (hfind3 k).trans (hfind2 k), hfull3,
        hbs3.trans (stepOnce_bucketSize hash t key)⟩
    · rw [if_neg hf] at h
      cases Option.some.inj h
      refine ⟨hI, fun k => rfl, ?_, rfl⟩
      cases h2 : (bucketAt t (IndexOf hash t key)).isFull
      · rfl
      · exact absurd h2 hf

theorem setPool_bucketAt {t : EHT K V} {bid : Nat} (nb : Bucket K V)
    (hbidP : bid < t.pool.length) (j : Nat) :
    bucketAt { t with pool := t.pool.set bid nb } j =
      (if dirAt t j = bid then nb else bucketAt t j) := by
  unfold bucketAt dirAt
  dsimp only
  by_cases hc : t.dir.getD j 0 = bid
  · rw [if_pos hc, hc]
    exact getD_set_same _ _ _ hbidP
  · rw [if_neg hc]
    exact getD_set_ne _ _ _ (fun h => hc h.symm)

theorem setPool_find {t : EHT K V} {bid : Nat} (nb : Bucket K V)
    (hbidP : bid < t.pool.length) (k : K) :
    find hash { t with pool := t.pool.set bid nb } k =
      bfind (if dirAt t (IndexOf hash t k) = bid then nb
             else bucketAt t (IndexOf hash t k)) k := by
  unfold find
  have hidx : IndexOf hash { t with pool := t.pool.set bid nb } k = IndexOf hash t k := rfl
  rw [hidx, setPool_bucketAt nb hbidP (IndexOf hash t k)]

theorem setPool_ok {t : EHT K V} {bid : Nat} (nb : Bucket K V) {i : Nat}
    (hI : Inv hash t) (hi : i < t.dir.length) (hbid : dirAt t i = bid)
    (hdepth : nb.depth = (t.pool.getD bid ⟨0, 0, []⟩).depth)
    (hsize : nb.size = (t.pool.getD bid ⟨0, 0, []⟩).size)
    (hlen : nb.list.length ≤ t.bucketSize)
    (hkeys : ∀ it ∈ nb.list, hash it.1 % 2 ^ nb.depth = i % 2 ^ nb.depth)
    (hnd : (nb.list.map Prod.fst).Nodup) :
    Inv hash { t with pool := t.pool.set bid nb } := by
  have hbidP : bid < t.pool.length := by rw [← hbid]; exact hI.ref i hi
  have hbi : bucketAt t i = t.pool.getD bid ⟨0, 0, []⟩ := by
    unfold bucketAt; rw [hbid]
  have hBA : ∀ j : Nat, bucketAt { t with pool := t.pool.set bid nb } j =
      (if dirAt t j = bid then nb else bucketAt t j) :=
    fun j => setPool_bucketAt nb hbidP j
  have hbj : ∀ j, dirAt t j = bid → bucketAt t j = t.pool.getD bid ⟨0, 0, []⟩ := by
    intro j hj; unfold bucketAt; rw [hj]
  have hdep' : ∀ j, (bucketAt { t with pool := t.pool.set bid nb } j).depth =
      (bucketAt t j).depth := by
    intro j
    rw [hBA j]
    by_cases hc : dirAt t j = bid
    · rw [if_pos hc, hbj j hc, hdepth]
    · rw [if_neg hc]
  refine ⟨hI.dirLen, ?_, ?_, ?_, ?_, ?_, ?_, ?_⟩
  · intro j hj
    have h2 := hI.ref j hj
    dsimp only
    rw [List.length_set]
    exact h2
  · intro j hj
    rw [hdep']
    exact hI.depthLe j hj
  · intro j hj
    rw [hBA j]
    by_cases hc : dirAt t j = bid
    · rw [if_pos hc, hsize, ← hbj j hc]
      exact hI.sizeEq j hj
    · rw [if_neg hc]; exact hI.sizeEq j hj
  · intro j hj
    rw [hBA j]
    by_cases hc : dirAt t j = bid
    · rw [if_pos hc]; exact hlen
    · rw [if_neg hc]; exact hI.lenLe j hj
  · intro j hj it hit
    rw [hBA j] at hit
    rw [hdep']
    by_cases hc : dirAt t j = bid
    · rw [if_pos hc] at hit
      have h1 := hkeys it hit
      have hshared := (hI.sharedIff i hi j hj).1 (hbid.trans hc.symm)
      rw [hbi, ← hdepth] at hshared
      rw [hbj j hc, ← hdepth]
      exact h1.trans hshared
    · rw [if_neg hc] at hit
      exact hI.keyBits j hj it hit
  · intro j1 hj1 j2 hj2
    have hdir : ∀ j : Nat, dirAt { t with pool := t.pool.set bid nb } j = dirAt t j :=
      fun j => rfl
    rw [hdir, hdir, hdep']
    exact hI.sharedIff j1 hj1 j2 hj2
  · intro j hj
    rw [hBA j]
    by_cases hc : dirAt t j = bid
    · rw [if_pos hc]; exact hnd
    · rw [if_neg hc]; exact hI.nodup j hj

theorem replaceFirst_map_fst (l : List (K × V)) (key : K) (value : V) :
    (replaceFirst l key value).map Prod.fst = l.map Prod.fst := by
  induction l with
  | nil => rfl
  | cons it rest ih =>
    unfold replaceFirst
    by_cases hk : it.1 = key
    · rw [if_pos hk]; rfl
    · rw [if_neg hk]
      simp only [List.map_cons, ih]

theorem replaceFirst_length (l : List (K × V)) (key : K) (value : V) :
    (replaceFirst l key value).length = l.length := by
  have h := congrArg List.length (replaceFirst_map_fst l key value)
  simpa using h

theorem replaceFirst_find?_ne {l : List (K × V)} {key k' : K} {value : V}
    (h : k' ≠ key) :
    (replaceFirst l key value).find? (fun it => decide (it.1 = k')) =
      l.find? (fun it => decide (it.1 = k')) := by
  induction l with
  | nil => rfl
  | cons it rest ih =>
    unfold replaceFirst
    by_cases hk : it.1 = key
    · rw [if_pos hk]
      rw [List.find?_cons, List.find?_cons]
      have hne : decide (it.1 = k') = false := by
        rw [decide_eq_false_iff_not]
        rw [hk]
        exact fun h2 => h h2.symm
      rw [hne]
    · rw [if_neg hk]
      rw [List.find?_cons, List.find?_cons]
      cases hp : decide (it.1 = k')
      · exact ih
      · rfl

theorem replaceFirst_find?_eq {l : List (K × V)} {key : K} {value : V}
    (h : (l.find? (fun it => decide (it.1 = key))).isSome = true) :
    ((replaceFirst l key value).find? (fun it => decide (it.1 = key))).map Prod.snd =
      some value := by
  induction l with
  | nil => cases h
  | cons it rest ih =>
    unfold replaceFirst
    by_cases hk : it.1 = key
    · rw [if_pos hk]
      rw [List.find?_cons]
      have hp : decide ((it.1, value).1 = key) = true := decide_eq_true hk
      rw [hp]
      rfl
    · rw [if_neg hk]
      rw [List.find?_cons]
      have hp : decide (it.1 = key) = false := decide_eq_false hk
      rw [hp]
      rw [List.find?_cons, hp] at h
      exact ih h

theorem finishInsert_eq_replace {t : EHT K V} {key : K} {value : V}
    (hpres : ((t.pool.getD (dirAt t (IndexOf hash t key)) ⟨0, 0, []⟩).list.find?
      (fun it => decide (it.1 = key))).isSome = true) :
    finishInsert hash t key value =
      { t with pool := (t.pool.set (dirAt t (IndexOf hash t key))
          ⟨(t.pool.getD (dirAt t (IndexOf hash t key)) ⟨0, 0, []⟩).size,
           (t.pool.getD (dirAt t (IndexOf hash t key)) ⟨0, 0, []⟩).depth,
           replaceFirst (t.pool.getD (dirAt t (IndexOf hash t key)) ⟨0, 0, []⟩).list
             key value⟩) } := by
  unfold finishInsert
  rw [if_pos hpres]

theorem finishInsert_eq_insert {t : EHT K V} {key : K} {value : V}
    (hpres : ((t.pool.getD (dirAt t (IndexOf hash t key)) ⟨0, 0, []⟩).list.find?
      (fun it => decide (it.1 = key))).isSome = false) :
    finishInsert hash t key value =
      { t with pool := (t.pool.set (dirAt t (IndexOf hash t key))
          (binsert (t.pool.getD (dirAt t (IndexOf hash t key)) ⟨0, 0, []⟩)
            key value).1) } := by
  unfold finishInsert
  rw [if_neg (by rw [hpres]; exact fun h => Bool.noConfusion h)]

theorem finishInsert_ok {t : EHT K V} {key : K} {value : V}
    (hI : Inv hash t)
    (hfull : (bucketAt t (IndexOf hash t key)).isFull = false) :
    Inv hash (finishInsert hash t key value) ∧
    find hash (finishInsert hash t key value) key = some value ∧
    (∀ k', k' ≠ key → find hash (finishInsert hash t key value) k' = find hash t k') ∧
    (finishInsert hash t key value).globalDepth = t.globalDepth ∧
    (finishInsert hash t key value).numBuckets = t.numBuckets := by
  have hi : IndexOf hash t key < t.dir.length := indexOf_lt hash hI.dirLen key
  have hbidP : dirAt t (IndexOf hash t key) < t.pool.length := hI.ref _ hi
  have hbi : bucketAt t (IndexOf hash t key) =
      t.pool.getD (dirAt t (IndexOf hash t key)) ⟨0, 0, []⟩ := rfl
  have hlenB : (t.pool.getD (dirAt t (IndexOf hash t key)) ⟨0, 0, []⟩).list.length ≤
      t.bucketSize := by
    have h := hI.lenLe _ hi; rwa [hbi] at h
  have hbj : ∀ j, dirAt t j = dirAt t (IndexOf hash t key) →
      bucketAt t j = t.pool.getD (dirAt t (IndexOf hash t key)) ⟨0, 0, []⟩ := by
    intro j hj; unfold bucketAt; rw [hj]
  cases hpres : ((t.pool.getD (dirAt t (IndexOf hash t key)) ⟨0, 0, []⟩).list.find?
      (fun it => decide (it.1 = key))).isSome with
  | true =>
    rw [finishInsert_eq_replace hash hpres]
    have hkeys : ∀ it ∈ replaceFirst
        (t.pool.getD (dirAt t (IndexOf hash t key)) ⟨0, 0, []⟩).list key value,
        hash it.1 % 2 ^ (t.pool.getD (dirAt t (IndexOf hash t key)) ⟨0, 0, []⟩).depth =
          IndexOf hash t key % 2 ^
            (t.pool.getD (dirAt t (IndexOf hash t key)) ⟨0, 0, []⟩).depth := by
      intro it hit
      have h1 : it.1 ∈ ((t.pool.getD (dirAt t (IndexOf hash t key))
          ⟨0, 0, []⟩).list.map Prod.fst) := by
        rw [← replaceFirst_map_fst _ key value]
        exact List.mem_map_of_mem _ hit
      obtain ⟨it0, hit0, heq⟩ := List.mem_map.1 h1
      have h2 := hI.keyBits _ hi it0 (by rw [hbi]; exact hit0)
      rw [← heq]
      exact h2
    have hInv2 := setPool_ok hash
      ⟨(t.pool.getD (dirAt t (IndexOf hash t key)) ⟨0, 0, []⟩).size,
       (t.pool.getD (dirAt t (IndexOf hash t key)) ⟨0, 0, []⟩).depth,
       replaceFirst (t.pool.getD (dirAt t (IndexOf hash t key)) ⟨0, 0, []⟩).list
         key value⟩
      hI hi rfl rfl rfl
      (by rw [replaceFirst_length]; exact hlenB) hkeys
      (by rw [replaceFirst_map_fst]
          have h := hI.nodup _ hi; rwa [hbi] at h)
    refine ⟨hInv2, ?_, ?_, rfl, rfl⟩
    · rw [setPool_find hash
        ⟨(t.pool.getD (dirAt t (IndexOf hash t key)) ⟨0, 0, []⟩).size,
         (t.pool.getD (dirAt t (IndexOf hash t key)) ⟨0, 0, []⟩).depth,
         replaceFirst (t.pool.getD (dirAt t (IndexOf hash t key)) ⟨0, 0, []⟩).list
           key value⟩ hbidP key, if_pos rfl]
      unfold bfind
      exact replaceFirst_find?_eq hpres
    · intro k' hk'
      rw [setPool_find hash
        ⟨(t.pool.getD (dirAt t (IndexOf hash t key)) ⟨0, 0, []⟩).size,
         (t.pool.getD (dirAt t (IndexOf hash t key)) ⟨0, 0, []⟩).depth,
         replaceFirst (t.pool.getD (dirAt t (IndexOf hash t key)) ⟨0, 0, []⟩).list
           key value⟩ hbidP k']
      by_cases hc : dirAt t (IndexOf hash t k') = dirAt t (IndexOf hash t key)
      · rw [if_pos hc]
        unfold find bfind
        dsimp only
        rw [replaceFirst_find?_ne hk', hbj _ hc]
      · rw [if_neg hc]
        rfl
  | false =>
    rw [finishInsert_eq_insert hash hpres]
    have hfindnone : (t.pool.getD (dirAt t (IndexOf hash t key)) ⟨0, 0, []⟩).list.find?
        (fun it => decide (it.1 = key)) = none := by
      cases hf : (t.pool.getD (dirAt t (IndexOf hash t key)) ⟨0, 0, []⟩).list.find?
          (fun it => decide (it.1 = key))
      · rfl
      · rw [hf] at hpres; cases hpres
    have habs : ∀ x ∈ (t.pool.getD (dirAt t (IndexOf hash t key)) ⟨0, 0, []⟩).list,
        x.1 ≠ key := by
      intro x hx
      have h2 := List.find?_eq_none.1 hfindnone x hx
      simpa using h2
    have hlt : (t.pool.getD (dirAt t (IndexOf hash t key)) ⟨0, 0, []⟩).list.length <
        (t.pool.getD (dirAt t (IndexOf hash t key)) ⟨0, 0, []⟩).size := by
      have hsz : (t.pool.getD (dirAt t (IndexOf hash t key)) ⟨0, 0, []⟩).size =
          t.bucketSize := by
        have h := hI.sizeEq _ hi; rwa [hbi] at h
      have hne : (t.pool.getD (dirAt t (IndexOf hash t key)) ⟨0, 0, []⟩).list.length ≠
          (t.pool.getD (dirAt t (IndexOf hash t key)) ⟨0, 0, []⟩).size := by
        intro h2
        rw [hbi] at hfull
        unfold Bucket.isFull at hfull
        rw [h2] at hfull
        simp at hfull
      omega
    rw [binsert_append hlt habs]
    dsimp only
    have hkeys : ∀ it ∈ (t.pool.getD (dirAt t (IndexOf hash t key)) ⟨0, 0, []⟩).list ++
        [(key, value)],
        hash it.1 % 2 ^ (t.pool.getD (dirAt t (IndexOf hash t key)) ⟨0, 0, []⟩).depth =
          IndexOf hash t key % 2 ^
            (t.pool.getD (dirAt t (IndexOf hash t key)) ⟨0, 0, []⟩).depth := by
      intro it hit
      rcases List.mem_append.1 hit with hold | hnew
      · exact hI.keyBits _ hi it (by rw [hbi]; exact hold)
      · have heq : it = (key, value) := by simpa using hnew
        subst heq
        have hd : (t.pool.getD (dirAt t (IndexOf hash t key)) ⟨0, 0, []⟩).depth ≤
            t.globalDepth := by
          have h := hI.depthLe _ hi; rwa [hbi] at h
        rw [indexOf_eq_mod] at hd ⊢
        exact (mod_mod_pow hd).symm
    have hndB : ((t.pool.getD (dirAt t (IndexOf hash t key))
        ⟨0, 0, []⟩).list.map Prod.fst).Nodup := by
      have h := hI.nodup _ hi; rwa [hbi] at h
    have hszB : (t.pool.getD (dirAt t (IndexOf hash t key)) ⟨0, 0, []⟩).size =
        t.bucketSize := by
      have h := hI.sizeEq _ hi; rwa [hbi] at h
    have hInv2 := setPool_ok hash
      ⟨(t.pool.getD (dirAt t (IndexOf hash t key)) ⟨0, 0, []⟩).size,
       (t.pool.getD (dirAt t (IndexOf hash t key)) ⟨0, 0, []⟩).depth,
       (t.pool.getD (dirAt t (IndexOf hash t key)) ⟨0, 0, []⟩).list ++ [(key, value)]⟩
      hI hi rfl rfl rfl
      (by rw [List.length_append]
          simp only [List.length_singleton]
          omega)
      hkeys
      (by rw [List.map_append]
          simp only [List.map_cons, List.map_nil]
          rw [List.nodup_append]
          refine ⟨hndB, List.nodup_singleton key, ?_⟩
          intro a ha hb
          have hak : a = key := by simpa using hb
          obtain ⟨x, hx, hxa⟩ := List.mem_map.1 ha
          exact habs x hx (hxa.trans hak))
    refine ⟨hInv2, ?_, ?_, rfl, rfl⟩
    · rw [setPool_find hash
        ⟨(t.pool.getD (dirAt t (IndexOf hash t key)) ⟨0, 0, []⟩).size,
         (t.pool.getD (dirAt t (IndexOf hash t key)) ⟨0, 0, []⟩).depth,
         (t.pool.getD (dirAt t (IndexOf hash t key)) ⟨0, 0, []⟩).list ++
           [(key, value)]⟩ hbidP key, if_pos rfl]
      unfold bfind
      dsimp only
      rw [List.find?_append, hfindnone]
      simp
    · intro k' hk'
      rw [setPool_find hash
        ⟨(t.pool.getD (dirAt t (IndexOf hash t key)) ⟨0, 0, []⟩).size,
         (t.pool.getD (dirAt t (IndexOf hash t key)) ⟨0, 0, []⟩).depth,
         (t.pool.getD (dirAt t (IndexOf hash t key)) ⟨0, 0, []⟩).list ++
           [(key, value)]⟩ hbidP k']
      by_cases hc : dirAt t (IndexOf hash t k') = dirAt t (IndexOf hash t key)
      · rw [if_pos hc]
        unfold find bfind
        dsimp only
        rw [List.find?_append]
        have hkk : ¬(key = k') := fun h => hk' h.symm
        have hsingle : ([(key, value)].find? (fun it => decide (it.1 = k'))) = none := by
          simp [hkk]
        rw [hsingle, hbj _ hc]
        cases hf : (t.pool.getD (dirAt t (IndexOf hash t key)) ⟨0, 0, []⟩).list.find?
            (fun it => decide (it.1 = k')) <;> rfl
      · rw [if_neg hc]
        rfl

theorem nodup_keys_inj {l : List (K × V)} (hnd : (l.map Prod.fst).Nodup)
    {x y : K × V} (hx : x ∈ l) (hy : y ∈ l) (h : x.1 = y.1) : x = y :=
  List.inj_on_of_nodup_map hnd hx hy h

theorem bremove_eq_found {b : Bucket K V} {key : K} {it : K × V}
    (h : b.list.find? (fun x => decide (x.1 = key)) = some it) :
    bremove b key = ({ b with list := b.list.filter (fun x => decide (x ≠ it)) }, true) := by
  unfold bremove
  rw [h]

theorem bremove_eq_none {b : Bucket K V} {key : K}
    (h : b.list.find? (fun x => decide (x.1 = key)) = none) :
    bremove b key = (b, false) := by
  unfold bremove
  rw [h]

theorem remove_fst_eq (t : EHT K V) (key : K) :
    (remove hash t key).1 = { t with pool := (t.pool.set (dirAt t (IndexOf hash t key))
      (bremove (t.pool.getD (dirAt t (IndexOf hash t key)) ⟨0, 0, []⟩) key).1) } := rfl

theorem remove_ok {t : EHT K V} (hI : Inv hash t) (key : K) :
    Inv hash (remove hash t key).1 ∧
    find hash (remove hash t key).1 key = none ∧
    (∀ k', k' ≠ key → find hash (remove hash t key).1 k' = find hash t k') ∧
    (remove hash t key).1.globalDepth = t.globalDepth ∧
    (remove hash t key).1.numBuckets = t.numBuckets := by
  have hi : IndexOf hash t key < t.dir.length := indexOf_lt hash hI.dirLen key
  have hbidP : dirAt t (IndexOf hash t key) < t.pool.length := hI.ref _ hi
  have hbi : bucketAt t (IndexOf hash t key) =
      t.pool.getD (dirAt t (IndexOf hash t key)) ⟨0, 0, []⟩ := rfl
  have hndB : ((t.pool.getD (dirAt t (IndexOf hash t key))
      ⟨0, 0, []⟩).list.map Prod.fst).Nodup := by
    have h := hI.nodup _ hi; rwa [hbi] at h
  have hbj : ∀ j, dirAt t j = dirAt t (IndexOf hash t key) →
      bucketAt t j = t.pool.getD (dirAt t (IndexOf hash t key)) ⟨0, 0, []⟩ := by
    intro j hj; unfold bucketAt; rw [hj]
  rw [remove_fst_eq]
  cases hf : (t.pool.getD (dirAt t (IndexOf hash t key)) ⟨0, 0, []⟩).list.find?
      (fun x => decide (x.1 = key)) with
  | none =>
    rw [bremove_eq_none hf]
    have hInv2 := setPool_ok hash
      (t.pool.getD (dirAt t (IndexOf hash t key)) ⟨0, 0, []⟩)
      hI hi rfl rfl rfl
      (by have h := hI.lenLe _ hi; rwa [hbi] at h)
      (by intro it hit
          exact hI.keyBits _ hi it (by rw [hbi]; exact hit))
      hndB
    refine ⟨hInv2, ?_, ?_, rfl, rfl⟩
    · rw [setPool_find hash
        (t.pool.getD (dirAt t (IndexOf hash t key)) ⟨0, 0, []⟩) hbidP key,
        if_pos rfl]
      unfold bfind
      rw [hf]
      rfl
    · intro k' hk'
      rw [setPool_find hash
        (t.pool.getD (dirAt t (IndexOf hash t key)) ⟨0, 0, []⟩) hbidP k']
      by_cases hc : dirAt t (IndexOf hash t k') = dirAt t (IndexOf hash t key)
      · rw [if_pos hc]
        unfold find bfind
        rw [hbj _ hc]
      · rw [if_neg hc]
        rfl
  | some it =>
    rw [bremove_eq_found hf]
    have hitmem : it ∈ (t.pool.getD (dirAt t (IndexOf hash t key)) ⟨0, 0, []⟩).list :=
      List.mem_of_find?_eq_some hf
    have hitp := List.find?_some hf
    have hitkey : it.1 = key := of_decide_eq_true hitp
    have hInv2 := setPool_ok hash
      ⟨(t.pool.getD (dirAt t (IndexOf hash t key)) ⟨0, 0, []⟩).size,
       (t.pool.getD (dirAt t (IndexOf hash t key)) ⟨0, 0, []⟩).depth,
       (t.pool.getD (dirAt t (IndexOf hash t key)) ⟨0, 0, []⟩).list.filter
         (fun x => decide (x ≠ it))⟩
      hI hi rfl rfl rfl
      (by have h := hI.lenLe _ hi
          rw [hbi] at h
          exact le_trans (List.length_filter_le _ _) h)
      (by intro x hx
          exact hI.keyBits _ hi x
            (by rw [hbi]; exact List.mem_of_mem_filter hx))
      (by exact ((List.filter_sublist _).map Prod.fst).nodup hndB)
    refine ⟨hInv2, ?_, ?_, rfl, rfl⟩
    · rw [setPool_find hash
        ⟨(t.pool.getD (dirAt t (IndexOf hash t key)) ⟨0, 0, []⟩).size,
         (t.pool.getD (dirAt t (IndexOf hash t key)) ⟨0, 0, []⟩).depth,
         (t.pool.getD (dirAt t (IndexOf hash t key)) ⟨0, 0, []⟩).list.filter
           (fun x => decide (x ≠ it))⟩ hbidP key,
        if_pos rfl]
      unfold bfind
      dsimp only
      have hnone : ((t.pool.getD (dirAt t (IndexOf hash t key)) ⟨0, 0, []⟩).list.filter
          (fun x => decide (x ≠ it))).find? (fun x => decide (x.1 = key)) = none := by
        rw [List.find?_eq_none]
        intro x hx
        rw [List.mem_filter] at hx
        intro hpx
        have hxkey : x.1 = key := of_decide_eq_true hpx
        have hxit : x = it := nodup_keys_inj hndB hx.1 hitmem (hxkey.trans hitkey.symm)
        have h2 := hx.2
        rw [hxit] at h2
        simp at h2
      rw [hnone]
      rfl
    · intro k' hk'
      rw [setPool_find hash
        ⟨(t.pool.getD (dirAt t (IndexOf hash t key)) ⟨0, 0, []⟩).size,
         (t.pool.getD (dirAt t (IndexOf hash t key)) ⟨0, 0, []⟩).depth,
         (t.pool.getD (dirAt t (IndexOf hash t key)) ⟨0, 0, []⟩).list.filter
           (fun x => decide (x ≠ it))⟩ hbidP k']
      by_cases hc : dirAt t (IndexOf hash t k') = dirAt t (IndexOf hash t key)
      · rw [if_pos hc]
        unfold find bfind
        dsimp only
        rw [hbj _ hc]
        rw [find?_filter_eq]
        intro x _ hpx
        have hxkey : x.1 = k' := of_decide_eq_true hpx
        have hxit : x ≠ it := by
          intro h2
          rw [h2] at hxkey
          exact hk' (hxkey.symm.trans hitkey)
        exact decide_eq_true hxit
      · rw [if_neg hc]
        rfl

theorem find_empty (bs : Nat) (k : K) : find hash (EHT.empty (V := V) bs) k = none := by
  unfold find bfind bucketAt dirAt
  have hidx : IndexOf hash (EHT.empty (K := K) (V := V) bs) k = 0 := by
    rw [indexOf_eq_mod]
    show hash k % 2 ^ (0 : Nat) = 0
    rw [pow_zero]
    exact Nat.mod_one _
  rw [hidx]
  rfl

theorem insert_eq_some {fuel : Nat} {t t' : EHT K V} {key : K} {value : V}
    (h : insert hash fuel t key value = some t') :
    ∃ t0, insertLoop hash fuel t key = some t0 ∧ t' = finishInsert hash t0 key value := by
  unfold insert at h
  cases hloop : insertLoop hash fuel t key with
  | none => rw [hloop] at h; cases h
  | some t0 =>
    rw [hloop] at h
    exact ⟨t0, rfl, (Option.some.inj h).symm⟩

theorem runOps_ok {ops : List (HOp K V)} : ∀ {t t' : EHT K V},
    Inv hash t → runOps hash ops t = some t' →
    Inv hash t' ∧ ∀ k, find hash t' k = specFind ops k (find hash t k) := by
  induction ops with
  | nil =>
    intro t t' hI h
    cases Option.some.inj h
    exact ⟨hI, fun k => rfl⟩
  | cons op rest ih =>
    intro t t' hI h
    cases op with
    | ins fuel key value =>
      unfold runOps at h
      cases hins : insert hash fuel t key value with
      | none => rw [hins] at h; cases h
      | some t1 =>
        rw [hins] at h
        obtain ⟨t0, hloop, ht1⟩ := insert_eq_some hash hins
        obtain ⟨hI0, hfind0, hfull0, _⟩ := insertLoop_ok hash hI hloop
        obtain ⟨hI1, hfindkey, hfindne, _, _⟩ := finishInsert_ok hash hI0 hfull0
        subst ht1
        obtain ⟨hI', hspec⟩ := ih hI1 h
        refine ⟨hI', fun k => ?_⟩
        rw [hspec k]
        show specFind rest k (find hash (finishInsert hash t0 key value) k) =
          specFind rest k (if key = k then some value else find hash t k)
        congr 1
        by_cases hk : key = k
        · subst hk
          rw [if_pos rfl]
          exact hfindkey
        · rw [if_neg hk]
          rw [hfindne k (fun h2 => hk h2.symm)]
          exact hfind0 k
    | rem key =>
      unfold runOps at h
      obtain ⟨hIr, hfindkey, hfindne, _, _⟩ := remove_ok hash hI key
      obtain ⟨hI', hspec⟩ := ih hIr h
      refine ⟨hI', fun k => ?_⟩
      rw [hspec k]
      show specFind rest k (find hash (remove hash t key).1 k) =
        specFind rest k (if key = k then none else find hash t k)
      congr 1
      by_cases hk : key = k
      · subst hk
        rw [if_pos rfl]
        exact hfindkey
      · rw [if_neg hk]
        exact hfindne k (fun h2 => hk h2.symm)

theorem runOps_empty_ok {bs : Nat} {ops : List (HOp K V)} {t : EHT K V}
    (h : runOps hash ops (EHT.empty bs) = some t) :
    Inv hash t ∧ ∀ k, find hash t k = specFind ops k none := by
  obtain ⟨hI, hspec⟩ := runOps_ok hash (inv_empty hash bs) h
  refine ⟨hI, fun k => ?_⟩
  rw [hspec k, find_empty]

/-- C1: for every operation sequence on the table (each insert given enough
fuel to finish its split loop), `find k` returns the value of the most
recent insert of `k` not followed by a remove of `k`, and nothing for a
never-inserted or removed key — across any intervening splits. -/
theorem claim_C1 {bs : Nat} {ops : List (HOp K V)} {t : EHT K V}
    (h : runOps hash ops (EHT.empty bs) = some t) (k : K) :
    find hash t k = specFind ops k none :=
  (runOps_empty_ok hash h).2 k

theorem claim_C1_witness :
    runOps (fun n : Nat => n) [HOp.ins 4 1 10, HOp.ins 4 2 20, HOp.ins 4 1 11, HOp.rem 2]
      (EHT.empty 2) =
      some ((runOps (fun n : Nat => n)
        [HOp.ins 4 1 10, HOp.ins 4 2 20, HOp.ins 4 1 11, HOp.rem 2]
        (EHT.empty 2)).getD (EHT.empty 2)) ∧
    find (fun n : Nat => n) ((runOps (fun n : Nat => n)
        [HOp.ins 4 1 10, HOp.ins 4 2 20, HOp.ins 4 1 11, HOp.rem 2]
        (EHT.empty 2)).getD (EHT.empty 2)) 1 =
      specFind [HOp.ins 4 1 10, HOp.ins 4 2 20, HOp.ins 4 1 11, HOp.rem 2] 1 none :=
  ⟨by decide, claim_C1 (fun n : Nat => n)
    (show runOps (fun n : Nat => n)
        [HOp.ins 4 1 10, HOp.ins 4 2 20, HOp.ins 4 1 11, HOp.rem 2] (EHT.empty 2) =
      some ((runOps (fun n : Nat => n)
        [HOp.ins 4 1 10, HOp.ins 4 2 20, HOp.ins 4 1 11, HOp.rem 2]
        (EHT.empty 2)).getD (EHT.empty 2)) by decide) 1⟩

/-- C7: in every reachable table state, a key appears in at most one
directory-reachable bucket (and at most once inside it), and one iteration
of the split loop — directory doubling plus redistribution and rewiring —
preserves every key's binding; doubling alone does too. -/
theorem claim_C7 {bs : Nat} {ops : List (HOp K V)} {t : EHT K V}
    (h : runOps hash ops (EHT.empty bs) = some t) :
    (∀ j1, j1 < t.dir.length → ∀ j2, j2 < t.dir.length →
      ∀ k v1 v2, (k, v1) ∈ (bucketAt t j1).list → (k, v2) ∈ (bucketAt t j2).list →
        dirAt t j1 = dirAt t j2 ∧ v1 = v2) ∧
    (∀ j, j < t.dir.length → ((bucketAt t j).list.map Prod.fst).Nodup) ∧
    (∀ key0 k, find hash (stepOnce hash t key0) k = find hash t k) ∧
    (∀ k, find hash (doubleDir t) k = find hash t k) := by
  have hI := (runOps_empty_ok hash h).1
  have hhome : ∀ j, j < t.dir.length → ∀ k v, (k, v) ∈ (bucketAt t j).list →
      dirAt t j = dirAt t (hash k % 2 ^ t.globalDepth) := by
    intro j hj k v hmem
    have hj' : hash k % 2 ^ t.globalDepth < t.dir.length := by
      rw [hI.dirLen]
      exact Nat.mod_lt _ (two_pow_pos' _)
    have hkb := hI.keyBits j hj (k, v) hmem
    have hd := hI.depthLe j hj
    refine (hI.sharedIff j hj _ hj').2 ?_
    rw [mod_mod_pow hd]
    exact hkb.symm
  refine ⟨?_, hI.nodup, fun key0 k => (stepOnce_ok hash hI key0).2 k,
    fun k => doubleDir_find hash hI k⟩
  intro j1 hj1 j2 hj2 k v1 v2 h1 h2
  have hda : dirAt t j1 = dirAt t j2 :=
    (hhome j1 hj1 k v1 h1).trans (hhome j2 hj2 k v2 h2).symm
  refine ⟨hda, ?_⟩
  have hbb : bucketAt t j1 = bucketAt t j2 := by
    unfold bucketAt
    rw [hda]
  rw [hbb] at h1
  have hinj := nodup_keys_inj (hI.nodup j2 hj2) h1 h2 (by rfl)
  exact congrArg Prod.snd hinj

theorem claim_C7_witness :
    find (fun n : Nat => n)
      (stepOnce (fun n : Nat => n)
        ((runOps (fun n : Nat => n) [HOp.ins 4 1 10, HOp.ins 4 2 20]
          (EHT.empty 2)).getD (EHT.empty 2)) 5) 1 =
    find (fun n : Nat => n)
      ((runOps (fun n : Nat => n) [HOp.ins 4 1 10, HOp.ins 4 2 20]
        (EHT.empty 2)).getD (EHT.empty 2)) 1 :=
  (claim_C7 (fun n : Nat => n)
    (show runOps (fun n : Nat => n) [HOp.ins 4 1 10, HOp.ins 4 2 20] (EHT.empty 2) =
      some ((runOps (fun n : Nat => n) [HOp.ins 4 1 10, HOp.ins 4 2 20]
        (EHT.empty 2)).getD (EHT.empty 2)) by decide)).2.2.1 5 1

theorem insertLoop_of_notFull {t : EHT K V} {key : K}
    (h : (bucketAt t (IndexOf hash t key)).isFull = false) (fuel : Nat) :
    insertLoop hash fuel t key = some t := by
  have hc : ¬((bucketAt t (IndexOf hash t key)).isFull = true) := by
    rw [h]; exact fun h2 => Bool.noConfusion h2
  cases fuel <;> (unfold insertLoop; rw [if_neg hc])

/-- C6 (amended): on a reachable state where `k` is present and the bucket
at `k`'s slot is not full, `insert k v` performs no split step at all — the
loop guard fails at once for any fuel — and only overwrites: `num_buckets`
and `global_depth` are unchanged, `find k` yields `v`, every other key is
untouched, and the bucket holds exactly one entry for `k`.  (When the
bucket is full the code does split first; see the counterexample.) -/
theorem claim_C6 {bs : Nat} {ops : List (HOp K V)} {t : EHT K V}
    (h : runOps hash ops (EHT.empty bs) = some t) {k : K} {w : V}
    (hpres : find hash t k = some w)
    (hnf : (bucketAt t (IndexOf hash t k)).isFull = false)
    (fuel : Nat) (v : V) :
    insert hash fuel t k v = some (finishInsert hash t k v) ∧
    (finishInsert hash t k v).numBuckets = t.numBuckets ∧
    (finishInsert hash t k v).globalDepth = t.globalDepth ∧
    find hash (finishInsert hash t k v) k = some v ∧
    (∀ k', k' ≠ k → find hash (finishInsert hash t k v) k' = find hash t k') ∧
    ((bucketAt (finishInsert hash t k v)
        (IndexOf hash (finishInsert hash t k v) k)).list.map Prod.fst).count k = 1 := by
  have hI := (runOps_empty_ok hash h).1
  obtain ⟨hI', hfk, hfne, hg, hnb⟩ := @finishInsert_ok K V _ _ hash t k v hI hnf
  have hi : IndexOf hash t k < t.dir.length := indexOf_lt hash hI.dirLen k
  have hbidP : dirAt t (IndexOf hash t k) < t.pool.length := hI.ref _ hi
  have hbi : bucketAt t (IndexOf hash t k) =
      t.pool.getD (dirAt t (IndexOf hash t k)) ⟨0, 0, []⟩ := rfl
  have hndB : ((t.pool.getD (dirAt t (IndexOf hash t k))
      ⟨0, 0, []⟩).list.map Prod.fst).Nodup := by
    have h2 := hI.nodup _ hi; rwa [hbi] at h2
  have hpresB : ((t.pool.getD (dirAt t (IndexOf hash t k)) ⟨0, 0, []⟩).list.find?
      (fun it => decide (it.1 = k))).isSome = true := by
    unfold find bfind at hpres
    rw [hbi] at hpres
    cases hf : (t.pool.getD (dirAt t (IndexOf hash t k)) ⟨0, 0, []⟩).list.find?
        (fun it => decide (it.1 = k))
    · rw [hf] at hpres; cases hpres
    · rfl
  refine ⟨?_, hnb, hg, hfk, hfne, ?_⟩
  · unfold insert
    rw [insertLoop_of_notFull hash hnf fuel]
    rfl
  · obtain ⟨it, hitfind⟩ := Option.isSome_iff_exists.1 hpresB
    have hitmem : it ∈ (t.pool.getD (dirAt t (IndexOf hash t k)) ⟨0, 0, []⟩).list :=
      List.mem_of_find?_eq_some hitfind
    have hitp := List.find?_some hitfind
    have hitkey : it.1 = k := of_decide_eq_true hitp
    have hkmem : k ∈ ((t.pool.getD (dirAt t (IndexOf hash t k))
        ⟨0, 0, []⟩).list.map Prod.fst) :=
      List.mem_map.2 ⟨it, hitmem, hitkey⟩
    rw [finishInsert_eq_replace hash hpresB]
    have hidx : IndexOf hash { t with pool := (t.pool.set (dirAt t (IndexOf hash t k))
        ⟨(t.pool.getD (dirAt t (IndexOf hash t k)) ⟨0, 0, []⟩).size,
         (t.pool.getD (dirAt t (IndexOf hash t k)) ⟨0, 0, []⟩).depth,
         replaceFirst (t.pool.getD (dirAt t (IndexOf hash t k)) ⟨0, 0, []⟩).list
           k v⟩) } k = IndexOf hash t k := rfl
    rw [hidx]
    rw [setPool_bucketAt
      ⟨(t.pool.getD (dirAt t (IndexOf hash t k)) ⟨0, 0, []⟩).size,
       (t.pool.getD (dirAt t (IndexOf hash t k)) ⟨0, 0, []⟩).depth,
       replaceFirst (t.pool.getD (dirAt t (IndexOf hash t k)) ⟨0, 0, []⟩).list
         k v⟩ hbidP (IndexOf hash t k), if_pos rfl]
    dsimp only
    rw [replaceFirst_map_fst]
    exact List.count_eq_one_of_mem hndB hkmem

theorem claim_C6_witness :
    insert (fun n : Nat => n) 3
      ((runOps (fun n : Nat => n) [HOp.ins 4 1 10] (EHT.empty 2)).getD (EHT.empty 2))
      1 99 =
      some (finishInsert (fun n : Nat => n)
        ((runOps (fun n : Nat => n) [HOp.ins 4 1 10] (EHT.empty 2)).getD (EHT.empty 2))
        1 99) ∧
    (finishInsert (fun n : Nat => n)
      ((runOps (fun n : Nat => n) [HOp.ins 4 1 10] (EHT.empty 2)).getD (EHT.empty 2))
      1 99).numBuckets =
      ((runOps (fun n : Nat => n) [HOp.ins 4 1 10] (EHT.empty 2)).getD
        (EHT.empty 2)).numBuckets ∧
    find (fun n : Nat => n)
      (finishInsert (fun n : Nat => n)
        ((runOps (fun n : Nat => n) [HOp.ins 4 1 10] (EHT.empty 2)).getD (EHT.empty 2))
        1 99) 1 = some 99 := by
  have hc := claim_C6 (fun n : Nat => n)
    (show runOps (fun n : Nat => n) [HOp.ins 4 1 10] (EHT.empty 2) =
      some ((runOps (fun n : Nat => n) [HOp.ins 4 1 10] (EHT.empty 2)).getD
        (EHT.empty 2)) by decide)
    (show find (fun n : Nat => n)
      ((runOps (fun n : Nat => n) [HOp.ins 4 1 10] (EHT.empty 2)).getD (EHT.empty 2)) 1 =
      some 10 by decide)
    (by decide) 3 99
  exact ⟨hc.1, hc.2.1, hc.2.2.2.1⟩

/-- C6 (counterexample to the claim as stated): with bucket size 2, after
inserting (0,10) and (2,20) the single bucket is full and key 0 is
present; `insert(0, 99)` then performs two split steps — `num_buckets`
goes from 1 to 3 and `global_depth` from 0 to 2 — contradicting "returns
without performing any split step ... also when the bucket containing k is
full". -/
theorem claim_C6_counterexample :
    runOps (fun n : Nat => n) [HOp.ins 4 0 10, HOp.ins 4 2 20] (EHT.empty 2) =
      some exTable ∧
    find (fun n : Nat => n) exTable 0 = some 10 ∧
    (bucketAt exTable (IndexOf (fun n : Nat => n) exTable 0)).isFull = true ∧
    exTable.numBuckets = 1 ∧ exTable.globalDepth = 0 ∧
    (insert (fun n : Nat => n) 5 exTable 0 99).map EHT.numBuckets = some 3 ∧
    (insert (fun n : Nat => n) 5 exTable 0 99).map EHT.globalDepth = some 2 := by
  refine ⟨by decide, by decide, by decide, by decide, by decide, by decide, by decide⟩

theorem land_one_two_pow {g : Nat} (hg : 1 ≤ g) : Nat.land 1 (2 ^ g) = 0 :=
  (land_two_pow_eq_zero_iff 1 g).2
    (Nat.testBit_lt_two_pow (Nat.one_lt_two_pow_iff.2 (by omega)))

theorem insertLoopStuck : ∀ (fuel : Nat) (t : EHT Nat Nat),
    t.dir.length = 2 ^ t.globalDepth →
    t.bucketSize = 1 →
    (bucketAt t (IndexOf (fun n : Nat => n) t 1)).size = 1 →
    (bucketAt t (IndexOf (fun n : Nat => n) t 1)).depth = t.globalDepth →
    (bucketAt t (IndexOf (fun n : Nat => n) t 1)).list = [(1, 10)] →
    insertLoop (fun n : Nat => n) fuel t 1 = none := by
  intro fuel
  induction fuel with
  | zero =>
    intro t hL hbs hsz hdp hlist
    unfold insertLoop
    rw [if_pos (by unfold Bucket.isFull; rw [hlist, hsz]; rfl)]
  | succ fuel ih =>
    intro t hL hbs hsz hdp hlist
    unfold insertLoop
    rw [if_pos (by unfold Bucket.isFull; rw [hlist, hsz]; rfl)]
    have hstep : stepOnce (fun n : Nat => n) t 1 =
        splitBucket (fun n : Nat => n) (doubleDir t)
          (dirAt t (IndexOf (fun n : Nat => n) t 1)) := by
      unfold stepOnce
      dsimp only
      rw [if_pos (show (t.pool.getD (dirAt t (IndexOf (fun n : Nat => n) t 1))
        ⟨0, 0, []⟩).depth = t.globalDepth from hdp)]
    rw [hstep]
    have hidx : IndexOf (fun n : Nat => n) t 1 = 1 % 2 ^ t.globalDepth := by
      rw [indexOf_eq_mod]
    have hlen2 : (doubleDir t).dir.length = 2 ^ (t.globalDepth + 1) := by
      unfold doubleDir
      dsimp only
      rw [List.length_append, hL, pow_succ_two]
    have h1lt : (1 : Nat) < 2 ^ (t.globalDepth + 1) :=
      Nat.one_lt_two_pow_iff.2 (by omega)
    have horig : (doubleDir t).pool.getD
        (dirAt t (IndexOf (fun n : Nat => n) t 1)) ⟨0, 0, []⟩ =
        bucketAt t (IndexOf (fun n : Nat => n) t 1) := rfl
    have hnd : (((doubleDir t).pool.getD
        (dirAt t (IndexOf (fun n : Nat => n) t 1)) ⟨0, 0, []⟩).list.map
          Prod.fst).Nodup := by
      rw [horig, hlist]
      simp
    have hlenO : ((doubleDir t).pool.getD
        (dirAt t (IndexOf (fun n : Nat => n) t 1)) ⟨0, 0, []⟩).list.length ≤
        (doubleDir t).bucketSize := by
      rw [horig, hlist]
      show 1 ≤ t.bucketSize
      omega
    have hpool2 := splitBucket_pool (fun n : Nat => n) hnd hlenO
    have hdd1 : dirAt (doubleDir t) 1 = dirAt t (IndexOf (fun n : Nat => n) t 1) := by
      rw [doubleDir_dirAt hL h1lt, ← hidx]
    have hdirAt2 := splitBucket_dirAt (fun n : Nat => n) (doubleDir t)
      (dirAt t (IndexOf (fun n : Nat => n) t 1)) (by rw [hlen2]; exact h1lt)
    rw [hdd1, if_pos rfl, horig, hdp] at hdirAt2
    have hg2 : (splitBucket (fun n : Nat => n) (doubleDir t)
        (dirAt t (IndexOf (fun n : Nat => n) t 1))).globalDepth =
        t.globalDepth + 1 := rfl
    have hL2 : (splitBucket (fun n : Nat => n) (doubleDir t)
        (dirAt t (IndexOf (fun n : Nat => n) t 1))).dir.length =
        2 ^ (t.globalDepth + 1) := by
      rw [splitBucket_dir_length, hlen2]
    have hidx2 : IndexOf (fun n : Nat => n)
        (splitBucket (fun n : Nat => n) (doubleDir t)
          (dirAt t (IndexOf (fun n : Nat => n) t 1))) 1 = 1 := by
      rw [indexOf_eq_mod, hg2]
      exact Nat.mod_eq_of_lt h1lt
    have hB0 : splitB0 (fun n : Nat => n) (doubleDir t)
        (dirAt t (IndexOf (fun n : Nat => n) t 1)) =
        ⟨t.bucketSize, t.globalDepth + 1,
          [((1 : Nat), (10 : Nat))].filter
            (fun it => !decide (Nat.land it.1 (2 ^ t.globalDepth) ≠ 0))⟩ := by
      unfold splitB0
      rw [horig, hdp, hlist]
      rfl
    have hB1 : splitB1 (fun n : Nat => n) (doubleDir t)
        (dirAt t (IndexOf (fun n : Nat => n) t 1)) =
        ⟨t.bucketSize, t.globalDepth + 1,
          [((1 : Nat), (10 : Nat))].filter
            (fun it => decide (Nat.land it.1 (2 ^ t.globalDepth) ≠ 0))⟩ := by
      unfold splitB1
      rw [horig, hdp, hlist]
      rfl
    have hbucket2 : bucketAt (splitBucket (fun n : Nat => n) (doubleDir t)
        (dirAt t (IndexOf (fun n : Nat => n) t 1))) 1 =
        ⟨t.bucketSize, t.globalDepth + 1, [((1 : Nat), (10 : Nat))]⟩ := by
      unfold bucketAt
      rw [hdirAt2, hpool2]
      by_cases hg : t.globalDepth = 0
      · rw [if_pos (show Nat.land 1 (2 ^ t.globalDepth) ≠ 0 by rw [hg]; decide)]
        rw [getD_append_two_snd, hB1, hg]
        rfl
      · rw [if_neg (show ¬Nat.land 1 (2 ^ t.globalDepth) ≠ 0 by
          rw [land_one_two_pow (show 1 ≤ t.globalDepth by omega)]
          exact fun h2 => h2 rfl)]
        rw [getD_append_two_fst, hB0]
        have hz := land_one_two_pow (show 1 ≤ t.globalDepth by omega)
        congr 1
        rw [List.filter_cons, List.filter_nil]
        rw [show Nat.land ((1 : Nat), (10 : Nat)).1 (2 ^ t.globalDepth) = 0 from hz]
        rfl
    apply ih
    · rw [hL2, hg2]
    · exact hbs
    · rw [hidx2, hbucket2]
      exact hbs
    · rw [hidx2, hbucket2, hg2]
    · rw [hidx2, hbucket2]

/-- C8 (divergence witness): with bucket size 1, after inserting (1,10)
the sole bucket is full and holds exactly the key being re-inserted, so
the split loop of `insert(1, 20)` re-splits forever — the bucket at the
key's slot stays full with the same single entry after every iteration —
and the loop never exits, for any number of iterations. -/
theorem claim_C8_nontermination :
    runOps (fun n : Nat => n) [HOp.ins 2 1 10] (EHT.empty 1) = some exTable1 ∧
    ∀ fuel, insert (fun n : Nat => n) fuel exTable1 1 20 = none := by
  refine ⟨by decide, fun fuel => ?_⟩
  unfold insert
  rw [insertLoopStuck fuel exTable1 (by decide) (by decide) (by decide) (by decide)
    (by decide)]
  rfl

end BusTub
